import Mathlib

/-!
# Shardy core protocol: shallow embedding and verification

Shallow embedding of the Shardy per-connection protocol engine
(`Block.ts`, `Transport.ts`, `Protocol.ts`, `Payload.ts`, `Pulse.ts`,
`Commander.ts`) together with proofs about framing, reassembly, the
protocol state gate, the request/response correlator, the pulse
watchdog and disconnect handling.

Modelling conventions:
* `Buffer`s are `List Nat`; every octet of a real buffer is `< 256` and
  theorems take that as a hypothesis where the arithmetic needs it.
* JavaScript 32-bit bitwise operators on in-range values are modelled by
  the corresponding `Nat` operators (`&&&`, `|||`, `<<<`, `>>>`).
* A TS `Buffer` together with its write `offset` is modelled as the list
  of the octets written so far, so `offset = buffer.length`.
* JS `Map`s are association lists in insertion order; `Map.set` of a
  fresh key appends, `Map.set` of a present key overwrites in place,
  `Map.delete` filters, iteration is list order.
* Callback invocation and socket writes are returned as explicit output
  lists instead of being performed; user-handler re-entrancy appears as
  further events of a trace.
-/

/-! ## Block codec (`src/Block.ts`) -/

/-- Length of block head. -/
def BLOCK_HEAD : Nat := 4

/-- Block type to encode (numeric TS enum, values 0..4). -/
inductive BlockType
  | Handshake
  | HandshakeAcknowledgement
  | Heartbeat
  | Data
  | Kick
deriving DecidableEq

/-- Numeric value of the TS enum member. -/
def BlockType.code : BlockType → Nat
  | .Handshake => 0
  | .HandshakeAcknowledgement => 1
  | .Heartbeat => 2
  | .Data => 3
  | .Kick => 4

/-- Block result structure after decode.  The TS code casts the first
octet to `BlockType` without validating it, so the field is a raw
octet value here. -/
structure BlockData where
  type : Nat
  body : List Nat
deriving DecidableEq

namespace Block

/-- `Block.encode`: one type octet, three big-endian length octets,
then the body (`buffer[0]=type&0xff`, `buffer[1]=(len>>16)&0xff`,
`buffer[2]=(len>>8)&0xff`, `buffer[3]=len&0xff`, then `data.copy`). -/
def encode (type : Nat) (body : List Nat) : List Nat :=
  let length := body.length
  (type &&& 255) :: ((length >>> 16) &&& 255) :: ((length >>> 8) &&& 255) ::
    (length &&& 255) :: body

/-- `Block.decode`: read the type octet, the 24-bit big-endian length
`(bytes[1] << 16) | (bytes[2] << 8) | bytes[3]`, allocate a zero-filled
body of that length and copy the available remaining bytes into it. -/
def decode (data : List Nat) : BlockData :=
  let type := data.headD 0
  let length := ((data.getD 1 0) <<< 16) ||| ((data.getD 2 0) <<< 8) ||| (data.getD 3 0)
  let copied := (data.drop BLOCK_HEAD).take length
  { type := type, body := copied ++ List.replicate (length - copied.length) 0 }

/-- `Block.check`: membership of the octet in the numeric enum values. -/
def check (type : Nat) : Bool := [0, 1, 2, 3, 4].contains type

end Block

/-- The three big-endian length octets of the frame head, written
arithmetically (bits 23..16, 15..8, 7..0); used to state what
`Block.encode` lays out. -/
def bigEndian24 (length : Nat) : List Nat :=
  [length / 2 ^ 16 % 256, length / 2 ^ 8 % 256, length % 256]

/-! ## Transport (`src/Transport.ts`) -/

/-- Transport scratch region: the octets written so far (its TS `offset`
is `buffer.length` here) and the region's target `size`. -/
structure TransportData where
  buffer : List Nat
  size : Nat
deriving DecidableEq

/-- Transport reader state. -/
inductive TransportState
  | Head
  | Body
  | Closed
deriving DecidableEq

/-- The mutable fields of a `Transport` instance. -/
structure TransportSt where
  state : TransportState
  head : TransportData
  package : TransportData
deriving DecidableEq

namespace Transport

/-- Constructor state: `Head`, empty 4-octet head region, empty package. -/
def initSt : TransportSt :=
  { state := .Head
    head := { buffer := [], size := BLOCK_HEAD }
    package := { buffer := [], size := 0 } }

/-- `Transport.getPackageSize`: for `i = 1..3`, shift the accumulator up
by 8 bits (except for `i = 1`) and add `buffer.readUInt8(i)`. -/
def getPackageSize (buffer : List Nat) : Nat :=
  (List.range' 1 3).foldl
    (fun result i => (if 1 < i then result <<< 8 else result) + buffer.getD i 0) 0

/-- `Transport.reset`: fresh head and package regions; back to `Head`
unless the transport is closed. -/
def reset (t : TransportSt) : TransportSt :=
  { state := if t.state = .Closed then .Closed else .Head
    head := { buffer := [], size := BLOCK_HEAD }
    package := { buffer := [], size := 0 } }

/-- `Transport.readHead`: copy `min(head-space, chunk-remainder)` octets
into the head region; once the head is full, read the package size
(`result = 0` on a negative size — dead code for unsigned reads), then
either start the body region (head octets included, so the upward
delivery is the whole frame) on a valid type octet, or skip the rest of
the chunk on an invalid one.  Returns the new state and next offset. -/
def readHead (t : TransportSt) (buffer : List Nat) (offset : Nat) : TransportSt × Nat :=
  let length := min (t.head.size - t.head.buffer.length) (buffer.length - offset)
  let result := offset + length
  let headBuf := t.head.buffer ++ (buffer.drop offset).take length
  if t.head.size ≤ headBuf.length then
    let size := getPackageSize headBuf
    let result := if size < 0 then 0 else result
    if Block.check (headBuf.headD 0) then
      ({ state := .Body
         head := { buffer := headBuf, size := t.head.size }
         package := { buffer := headBuf, size := size + t.head.size } }, result)
    else
      ({ t with head := { buffer := headBuf, size := t.head.size } }, buffer.length)
  else
    ({ t with head := { buffer := headBuf, size := t.head.size } }, result)

/-- `Transport.readBody`: copy `min(package-space, chunk-remainder)`
octets into the package region; when it fills, emit the whole frame and
reset.  Returns the new state, the next offset, and the emitted frame
if one completed. -/
def readBody (t : TransportSt) (buffer : List Nat) (offset : Nat) :
    TransportSt × Nat × Option (List Nat) :=
  let length := min (t.package.size - t.package.buffer.length) (buffer.length - offset)
  let result := offset + length
  let pkg := t.package.buffer ++ (buffer.drop offset).take length
  if pkg.length = t.package.size then
    (reset { t with package := { buffer := pkg, size := t.package.size } }, result, some pkg)
  else
    ({ t with package := { buffer := pkg, size := t.package.size } }, result, none)

/-- The `while (offset < end)` loop of `Transport.processData`: read the
head if in `Head` state, then the body if in `Body` state, collecting
emitted frames.  `fuel` bounds the number of iterations; on every state
the source can reach, an iteration strictly advances `offset`, so
`buffer.length + 1` units of fuel reproduce the loop exactly (the
fuel-out branch is unreachable from reachable states). -/
def processLoop (buffer : List Nat) : Nat → TransportSt → Nat → TransportSt × List (List Nat)
  | 0, t, _ => (t, [])
  | fuel + 1, t, offset =>
    if offset < buffer.length then
      let p1 := if t.state = .Head then readHead t buffer offset else (t, offset)
      let p2 := if p1.1.state = .Body then readBody p1.1 buffer p1.2 else (p1.1, p1.2, none)
      let p3 := processLoop buffer fuel p2.1 p2.2.1
      (p3.1, p2.2.2.toList ++ p3.2)
    else (t, [])

/-- `Transport.processData`: drop the chunk if closed, else run the
read loop from offset 0. -/
def processData (t : TransportSt) (buffer : List Nat) : TransportSt × List (List Nat) :=
  if t.state = .Closed then (t, [])
  else processLoop buffer (buffer.length + 1) t 0

/-- Feed a list of chunks through `processData` in order, concatenating
the emitted frames. -/
def processChunks : TransportSt → List (List Nat) → TransportSt × List (List Nat)
  | t, [] => (t, [])
  | t, c :: cs =>
    let p1 := processData t c
    let p2 := processChunks p1.1 cs
    (p2.1, p1.2 ++ p2.2)

/-- `Transport.close`: state becomes `Closed` (the socket is also
closed, an external effect). -/
def close (t : TransportSt) : TransportSt := { t with state := .Closed }

/-- `Transport.dispatch` as the list of buffers written to the
connection: pass-through unless closed. -/
def dispatchW (ts : TransportState) (data : List Nat) : List (List Nat) :=
  if ts ≠ .Closed then [data] else []

/-- `Transport.onError`: log, `close()`, then one `onDisconnect()`
call.  The second component counts upward disconnect notifications. -/
def onErrorEv (t : TransportSt) : TransportSt × Nat := (close t, 1)

/-- `Transport.onClose`: log, `close()`, then one `onDisconnect()`
call. -/
def onCloseEv (t : TransportSt) : TransportSt × Nat := (close t, 1)

/-- Events the `Connection` forwards unconditionally from the socket. -/
inductive ConnEvent
  | error
  | closeEvent
deriving DecidableEq

/-- Dispatch one connection event to the transport's handler. -/
def onConnEvent (t : TransportSt) : ConnEvent → TransportSt × Nat
  | .error => onErrorEv t
  | .closeEvent => onCloseEv t

/-- Run a sequence of connection events, summing the upward disconnect
notifications. -/
def runConnEvents : TransportSt → List ConnEvent → TransportSt × Nat
  | t, [] => (t, 0)
  | t, e :: es =>
    let p1 := onConnEvent t e
    let p2 := runConnEvents p1.1 es
    (p2.1, p1.2 + p2.2)

end Transport

/-! ## Protocol (`src/Protocol.ts`) -/

/-- Protocol state. -/
inductive ProtocolState
  | Start
  | Handshake
  | Work
  | Closed
deriving DecidableEq

namespace Protocol

/-- `Protocol.onData`: ignore when closed; decode the block; discard
invalid types (`catchBlockForState` only logs); otherwise gate the
block type by the current state, emitting via `onBlock` and advancing
the state exactly as the TS `switch` does.  Returns the new state and
the emitted block, if any. -/
def onData (state : ProtocolState) (data : List Nat) : ProtocolState × Option BlockData :=
  if state = .Closed then (state, none)
  else
    let block := Block.decode data
    if ¬ Block.check block.type then (state, none)
    else
      match state with
      | .Work =>
        if block.type = BlockType.Heartbeat.code ∨ block.type = BlockType.Kick.code ∨
            block.type = BlockType.Data.code then (state, some block)
        else (state, none)
      | .Start =>
        if block.type = BlockType.Heartbeat.code then (state, some block)
        else if block.type = BlockType.Handshake.code then (.Handshake, some block)
        else (state, none)
      | .Handshake =>
        if block.type = BlockType.HandshakeAcknowledgement.code then (.Work, some block)
        else if block.type = BlockType.Heartbeat.code ∨ block.type = BlockType.Kick.code then
          (state, some block)
        else (state, none)
      | .Closed => (state, none)

/-- The inbound gate table of the specification (§4.6): which block
type codes each protocol state admits. -/
def admitted : ProtocolState → Nat → Bool
  | .Start, t => t == BlockType.Handshake.code || t == BlockType.Heartbeat.code
  | .Handshake, t =>
    t == BlockType.HandshakeAcknowledgement.code || t == BlockType.Heartbeat.code ||
      t == BlockType.Kick.code
  | .Work, t =>
    t == BlockType.Heartbeat.code || t == BlockType.Kick.code || t == BlockType.Data.code
  | .Closed, _ => false

/-- `Protocol.dispatch` as the list of buffers that reach the
connection: a closed protocol discards the block (warn only); otherwise
the block is encoded and handed to `Transport.dispatch`. -/
def dispatchW (ps : ProtocolState) (ts : TransportState) (type : Nat) (body : List Nat) :
    List (List Nat) :=
  if ps = .Closed then []
  else Transport.dispatchW ts (Block.encode type body)

end Protocol

/-! ## Payload (`src/Payload.ts`) -/

/-- Payload type (numeric TS enum: Request = 0, Command = 1,
Response = 2). -/
inductive PayloadType
  | Request
  | Command
  | Response
deriving DecidableEq

/-- Numeric value of the TS enum member. -/
def PayloadType.code : PayloadType → Nat
  | .Request => 0
  | .Command => 1
  | .Response => 2

/-- Payload after decode. -/
structure PayloadData where
  type : Nat
  name : String
  id : Nat
  data : List Nat
  error : String
deriving DecidableEq

namespace Payload

/-- `Payload.create`: fill default empty `data`/`error` and build the
envelope without serialization. -/
def create (type : Nat) (name : String) (id : Nat) (data : Option (List Nat))
    (error : Option String) : PayloadData :=
  { type := type, name := name, id := id, data := data.getD [], error := error.getD "" }

/-- `Payload.encode`: fill defaults, then defer entirely to the
injected serializer. -/
def encode (ser : PayloadData → List Nat) (type : Nat) (name : String) (id : Nat)
    (data : Option (List Nat)) (error : Option String) : List Nat :=
  ser (create type name id data error)

/-- `Payload.check`: membership of `type` in the numeric enum values. -/
def check (payload : PayloadData) : Bool := [0, 1, 2].contains payload.type

end Payload

/-! ## Commander data model (`src/Commander.ts`, `src/Pulse.ts`) -/

/-- Mode for commander. -/
inductive CommanderMode
  | Service
  | Bot
deriving DecidableEq

/-- Disconnect reasons (numeric TS enum, values 0..4). -/
inductive DisconnectReason
  | Normal
  | Timeout
  | Handshake
  | ServerDown
  | Unknown
deriving DecidableEq

/-- Numeric value of the TS enum member. -/
def DisconnectReason.code : DisconnectReason → Nat
  | .Normal => 0
  | .Timeout => 1
  | .Handshake => 2
  | .ServerDown => 3
  | .Unknown => 4

/-- Runtime value of the commander's `reason` field.  The field is
declared `DisconnectReason`, but `onKick` assigns the received `Buffer`
through `as unknown as DisconnectReason`, so a faithful model needs a
raw-bytes alternative alongside the enum values. -/
inductive RecordedReason
  | reason (r : DisconnectReason)
  | raw (bytes : List Nat)
deriving DecidableEq

/-- Octets of the decimal textual representation of a number
(`Buffer.from(n.toString())`). -/
def decimalBytes (n : Nat) : List Nat := (Nat.repr n).toList.map Char.toNat

/-- `Protocol.kick` body: `Buffer.from(reason.toString())`, the decimal
text of the enum value. -/
def Protocol.kickBody (reason : DisconnectReason) : List Nat := decimalBytes reason.code

/-- The enum member with a given numeric value, if any. -/
def DisconnectReason.ofCode : Nat → Option DisconnectReason
  | 0 => some .Normal
  | 1 => some .Timeout
  | 2 => some .Handshake
  | 3 => some .ServerDown
  | 4 => some .Unknown
  | _ => none

/-- Parse a non-empty string of decimal digit octets. -/
def parseDecimal (body : List Nat) : Option Nat :=
  if body ≠ [] ∧ body.all (fun b => decide (48 ≤ b ∧ b ≤ 57)) then
    some (body.foldl (fun acc b => acc * 10 + (b - 48)) 0)
  else none

/-- Modelled from the spec: the receiving side of a Kick body.  §9
fixes that «the Kick body is the reason encoded as its decimal textual
representation; the receiver parses it back to the enum», but no such
parse exists under `src/`; this definition follows the spec's words:
parse the decimal digit octets and map the value to the enum. -/
def specParseKickReason (body : List Nat) : Option DisconnectReason :=
  (parseDecimal body).bind DisconnectReason.ofCode

/-- Pulse counter state. -/
structure PulseState where
  checks : Nat
  limit : Nat
deriving DecidableEq

namespace Pulse

/-- `Pulse` constructor: zero counter; the cached limit is 1 in `Bot`
mode and the configured `PULSE_LIMIT` in `Service` mode. -/
def init (mode : CommanderMode) (envPulseLimit : Nat) : PulseState :=
  { checks := 0, limit := if mode = .Bot then 1 else envPulseLimit }

/-- `Pulse.onCheckPulse`: increment the counter; when it exceeds the
limit, reset it and fire `onPulse` (second component). -/
def onCheckPulse (p : PulseState) : PulseState × Bool :=
  let checks := p.checks + 1
  if p.limit < checks then ({ p with checks := 0 }, true)
  else ({ p with checks := checks }, false)

end Pulse

/-! ### JS `Map` model: association lists in insertion order -/

/-- `Map.set` on a map with values: overwrite in place when the key is
present, else append. -/
def setA {α : Type} (l : List (Nat × α)) (k : Nat) (v : α) : List (Nat × α) :=
  if (l.map Prod.fst).contains k then
    l.map (fun kv => if kv.1 = k then (k, v) else kv)
  else l ++ [(k, v)]

/-- `Map.delete`. -/
def delA {α : Type} (l : List (Nat × α)) (k : Nat) : List (Nat × α) :=
  l.filter (fun kv => kv.1 != k)

/-- `Map.get`. -/
def getA {α : Type} (l : List (Nat × α)) (k : Nat) : Option α :=
  (l.find? (fun kv => kv.1 == k)).map Prod.snd

/-- `Map.set` on a map whose values are irrelevant to the model (the
`callbacks` map, whose values are opaque closures): the domain in
insertion order. -/
def setN (l : List Nat) (k : Nat) : List Nat :=
  if l.contains k then l else l ++ [k]

/-- `Map.delete` on a domain list. -/
def delN (l : List Nat) (k : Nat) : List Nat := l.filter (fun x => x != k)

/-- String-keyed `Map.get` (the `commands` / `requests` tables). -/
def getS {α : Type} (l : List (String × α)) (k : String) : Option α :=
  (l.find? (fun kv => kv.1 == k)).map Prod.snd

/-! ### Commander state and operations -/

/-- Default timeout error code. -/
def TIMEOUT_ERROR : String := "timeout"

/-- The mutable fields of a `Commander` (with its owned `Protocol` and
`Transport` states inlined): request id `counter`, the four tables,
the recorded disconnect `reason` and the pulse counter. -/
structure CommanderSt where
  protocol : ProtocolState
  transport : TransportState
  counter : Nat
  callbacks : List Nat
  names : List (Nat × String)
  timeouts : List (Nat × Nat)
  commands : List (String × List Nat)
  requests : List (String × Nat)
  reason : RecordedReason
  pulseChecks : Nat
deriving DecidableEq

/-- Observable effects of a commander step: buffers written to the
connection, callback invocations handed to user code, and upward
events. -/
inductive CmdOut
  | write (bytes : List Nat)
  | invokeResponse (id : Nat) (payload : PayloadData)
  | invokeTask (name : String) (payload : PayloadData)
  | invokeSub (name : String) (cb : Nat) (payload : PayloadData)
  | invokeReqHandler (name : String) (payload : PayloadData)
  | ready
deriving DecidableEq

namespace Commander

/-- Constructor state: `Start`/`Head`, counter finally set to 0, empty
tables, reason `Normal`. -/
def initSt : CommanderSt :=
  { protocol := .Start
    transport := .Head
    counter := 0
    callbacks := []
    names := []
    timeouts := []
    commands := []
    requests := []
    reason := .reason .Normal
    pulseChecks := 0 }

/-- A commander whose protocol (and transport) have been closed. -/
def closedSt : CommanderSt :=
  { initSt with protocol := .Closed, transport := .Closed }

/-- A commander in the `Work` state of an established connection. -/
def workSt : CommanderSt := { initSt with protocol := .Work }

/-- `Commander.heartbeat` → `Protocol.heartbeat` → dispatch of a
`Heartbeat` block with empty body, as output writes. -/
def heartbeatW (s : CommanderSt) : List CmdOut :=
  (Protocol.dispatchW s.protocol s.transport BlockType.Heartbeat.code []).map .write

/-- `Commander.command`: encode a `(Command, name, 0, data)` envelope
and send it as a `Data` block.  No commander state is touched. -/
def command (ser : PayloadData → List Nat) (s : CommanderSt) (name : String)
    (data : Option (List Nat)) : CommanderSt × List CmdOut :=
  let payload := Payload.encode ser PayloadType.Command.code name 0 data none
  (s, (Protocol.dispatchW s.protocol s.transport BlockType.Data.code payload).map .write)

/-- `Commander.request` (with `now = Date.now()`): send a
`(Request, name, counter, data)` envelope, record the callback, the
name and the send timestamp under the current counter, then increment
the counter and return it. -/
def request (ser : PayloadData → List Nat) (s : CommanderSt) (name : String)
    (data : Option (List Nat)) (now : Nat) : CommanderSt × List CmdOut × Nat :=
  let payload := Payload.encode ser PayloadType.Request.code name s.counter data none
  let w := (Protocol.dispatchW s.protocol s.transport BlockType.Data.code payload).map CmdOut.write
  ({ s with
      callbacks := setN s.callbacks s.counter
      names := setA s.names s.counter name
      timeouts := setA s.timeouts s.counter now
      counter := s.counter + 1 }, w, s.counter)

/-- `Commander.fetch`: identical effects to `request`, with the promise
resolver recorded as the callback. -/
def fetch (ser : PayloadData → List Nat) (s : CommanderSt) (name : String)
    (data : Option (List Nat)) (now : Nat) : CommanderSt × List CmdOut :=
  let payload := Payload.encode ser PayloadType.Request.code name s.counter data none
  let w := (Protocol.dispatchW s.protocol s.transport BlockType.Data.code payload).map CmdOut.write
  ({ s with
      callbacks := setN s.callbacks s.counter
      names := setA s.names s.counter name
      timeouts := setA s.timeouts s.counter now
      counter := s.counter + 1 }, w)

/-- `Commander.response`: echo `(Response, request.name, request.id,
data, error = "")`. -/
def response (ser : PayloadData → List Nat) (s : CommanderSt) (req : PayloadData)
    (data : Option (List Nat)) : CommanderSt × List CmdOut :=
  let payload := Payload.encode ser PayloadType.Response.code req.name req.id data none
  (s, (Protocol.dispatchW s.protocol s.transport BlockType.Data.code payload).map .write)

/-- `Commander.error`: `response` with a non-empty error string. -/
def error (ser : PayloadData → List Nat) (s : CommanderSt) (req : PayloadData)
    (err : String) (data : Option (List Nat)) : CommanderSt × List CmdOut :=
  let payload := Payload.encode ser PayloadType.Response.code req.name req.id data (some err)
  (s, (Protocol.dispatchW s.protocol s.transport BlockType.Data.code payload).map .write)

/-- `Commander.cancelRequest`: delete the pending record from `names`,
`callbacks` and `timeouts`. -/
def cancelRequest (s : CommanderSt) (id : Nat) : CommanderSt :=
  { s with
      names := delA s.names id
      callbacks := delN s.callbacks id
      timeouts := delA s.timeouts id }

/-- `Commander.kick`: send a Kick block whose body is the decimal text
of the reason, then `Protocol.disconnect` (protocol and transport go
`Closed`) and `Pulse.clear` (counter zeroed, timer stopped). -/
def kick (s : CommanderSt) (reason : DisconnectReason) : CommanderSt × List CmdOut :=
  let w := (Protocol.dispatchW s.protocol s.transport BlockType.Kick.code
    (Protocol.kickBody reason)).map CmdOut.write
  ({ s with protocol := .Closed, transport := .Closed, pulseChecks := 0 }, w)

/-- `Commander.onKick`: `this.reason = block.body as unknown as
DisconnectReason` — the raw body buffer is stored unparsed — then the
pulse is reset. -/
def onKick (s : CommanderSt) (body : List Nat) : CommanderSt :=
  { s with reason := .raw body, pulseChecks := 0 }

/-- `Commander.onPayload`: reset the pulse; in `Bot` mode proactively
send a heartbeat; then dispatch on the envelope kind exactly as the TS
`switch` does.  `tasks` is the domain of the statically loaded
`options.commands` table; handler invocations are outputs, and anything
a user handler does in turn appears as later events of a trace. -/
def onPayload (mode : CommanderMode) (tasks : List String) (s : CommanderSt)
    (payload : PayloadData) : CommanderSt × List CmdOut :=
  let s := { s with pulseChecks := 0 }
  let hb : List CmdOut := if mode = .Bot then heartbeatW s else []
  if payload.type = PayloadType.Command.code then
    if mode = .Service then
      if tasks.contains payload.name then (s, hb ++ [.invokeTask payload.name payload])
      else (s, hb)
    else
      match getS s.commands payload.name with
      | some list => (s, hb ++ list.map (fun cb => CmdOut.invokeSub payload.name cb payload))
      | none => (s, hb)
  else if payload.type = PayloadType.Request.code then
    if mode = .Service then
      if tasks.contains payload.name then (s, hb ++ [.invokeTask payload.name payload])
      else (s, hb)
    else
      match getS s.requests payload.name with
      | some _ => (s, hb ++ [.invokeReqHandler payload.name payload])
      | none => (s, hb)
  else if payload.type = PayloadType.Response.code then
    if s.callbacks.contains payload.id then
      (cancelRequest s payload.id, hb ++ [.invokeResponse payload.id payload])
    else (s, hb)
  else (s, hb)

/-- The loop body of `Commander.onCheckTimeout` over the entries of the
`timeouts` map: any entry past the configured timeout gets a synthesized
`(Response, names.get(id), id, error = "timeout")` envelope fed back
through `onPayload`.  The JS `for…of` visits the live map, but every
delivery deletes only the entry being visited, so folding over the
snapshot is exact. -/
def onCheckTimeoutGo (mode : CommanderMode) (tasks : List String) (rt now : Nat) :
    List (Nat × Nat) → CommanderSt → CommanderSt × List CmdOut
  | [], s => (s, [])
  | (id, time) :: rest, s =>
    if rt < now - time then
      let payload := Payload.create PayloadType.Response.code ((getA s.names id).getD "") id
        none (some TIMEOUT_ERROR)
      let p1 := onPayload mode tasks s payload
      let p2 := onCheckTimeoutGo mode tasks rt now rest p1.1
      (p2.1, p1.2 ++ p2.2)
    else onCheckTimeoutGo mode tasks rt now rest s

/-- `Commander.onCheckTimeout` (with `now = Date.now()` and `rt` the
configured `REQUEST_TIMEOUT`). -/
def onCheckTimeout (mode : CommanderMode) (tasks : List String) (rt : Nat) (s : CommanderSt)
    (now : Nat) : CommanderSt × List CmdOut :=
  onCheckTimeoutGo mode tasks rt now s.timeouts s

/-- `Commander.onPulse`: a `Bot` sends a heartbeat; a `Service` sends
`Kick(Timeout)` and disconnects. -/
def onPulse (mode : CommanderMode) (s : CommanderSt) : CommanderSt × List CmdOut :=
  if mode = .Bot then (s, heartbeatW s)
  else kick s .Timeout

end Commander

/-! ### Serialized per-connection events for the correlator claims -/

/-- The serialized events that touch the request correlator while the
connection is up: an outbound `request` call, an inbound decoded `Data`
payload, and a timeout-scanner tick.  (Disconnect, which drops all
pending records, and explicit `cancelRequest` are outside these
traces.) -/
inductive CEvent
  | request (name : String) (now : Nat)
  | payload (p : PayloadData)
  | tick (now : Nat)
deriving DecidableEq

/-- One serialized commander step.  An inbound `Data` payload goes
through the `Payload.check` guard of `Commander.onBlock` first. -/
def Commander.stepEv (mode : CommanderMode) (tasks : List String)
    (ser : PayloadData → List Nat) (rt : Nat) (s : CommanderSt) :
    CEvent → CommanderSt × List CmdOut
  | .request name now =>
    let p := Commander.request ser s name none now
    (p.1, p.2.1)
  | .payload p =>
    if Payload.check p then Commander.onPayload mode tasks s p else (s, [])
  | .tick now => Commander.onCheckTimeout mode tasks rt s now

/-- Run a trace of serialized events, concatenating the outputs. -/
def Commander.runEv (mode : CommanderMode) (tasks : List String)
    (ser : PayloadData → List Nat) (rt : Nat) :
    CommanderSt → List CEvent → CommanderSt × List CmdOut
  | s, [] => (s, [])
  | s, e :: es =>
    let p1 := Commander.stepEv mode tasks ser rt s e
    let p2 := Commander.runEv mode tasks ser rt p1.1 es
    (p2.1, p1.2 ++ p2.2)

/-- Whether an output is an invocation of the pending-request callback
registered under id `i`. -/
def isInvFor (i : Nat) : CmdOut → Bool
  | CmdOut.invokeResponse j _ => j == i
  | _ => false

/-- Number of invocations of the pending-request callback registered
under id `i` in an output list. -/
def invCount (i : Nat) (outs : List CmdOut) : Nat := outs.countP (isInvFor i)

/-- An event that must complete the pending request `i` (sent at
`sendTime`, with request timeout `rt`): a matching inbound `Response`
envelope, or a timeout-scanner tick past the deadline. -/
def IsTrigger (i sendTime rt : Nat) : CEvent → Prop
  | CEvent.payload p => p.type = PayloadType.Response.code ∧ p.id = i
  | CEvent.tick now => rt < now - sendTime
  | _ => False

/-- Correlator well-formedness: the id maps have no duplicate keys,
`callbacks` and `timeouts` share a domain, and every live id is below
the counter (ids are never reused). -/
def CommanderWF (s : CommanderSt) : Prop :=
  s.callbacks.Nodup ∧ (s.timeouts.map Prod.fst).Nodup ∧
    (∀ i ∈ s.callbacks, i < s.counter) ∧
    (∀ i, i ∈ s.callbacks ↔ i ∈ s.timeouts.map Prod.fst)

/-! ### Pulse ticks without inbound traffic (for the heartbeat claims) -/

/-- Run `n` pulse-timer ticks with no inbound traffic in between: each
tick runs `Pulse.onCheckPulse`, and a firing tick runs
`Commander.onPulse`. -/
def runSilentTicks (mode : CommanderMode) :
    Nat → PulseState → CommanderSt → (PulseState × CommanderSt) × List CmdOut
  | 0, p, s => ((p, s), [])
  | n + 1, p, s =>
    let p1 := Pulse.onCheckPulse p
    let q := if p1.2 then Commander.onPulse mode s else (s, [])
    let p2 := runSilentTicks mode n p1.1 q.1
    (p2.1, q.2 ++ p2.2)

/-! ### Frame streams (for the reassembly claim) -/

/-- A frame as (type octet, body); its wire form is `Block.encode`. -/
def encFrame (f : Nat × List Nat) : List Nat := Block.encode f.1 f.2

/-- A well-formed whole frame: a defined type octet and a body the
24-bit length field can describe. -/
def WFframe (f : Nat × List Nat) : Prop := f.1 < 5 ∧ f.2.length < 2 ^ 24

/-- The transport state of the source after consuming `k` octets of the
frame `f` (`0 ≤ k < |encFrame f|`): head partially filled while
`k < 4`, else body partially filled with the head octets retained. -/
def posState (f : Nat × List Nat) (k : Nat) : TransportSt :=
  if k < BLOCK_HEAD then
    { state := .Head
      head := { buffer := (encFrame f).take k, size := BLOCK_HEAD }
      package := { buffer := [], size := 0 } }
  else
    { state := .Body
      head := { buffer := (encFrame f).take BLOCK_HEAD, size := BLOCK_HEAD }
      package := { buffer := (encFrame f).take k, size := (encFrame f).length } }

/-- Advance a stream position `(frames still incomplete, octets of the
first one already consumed)` by `n` octets, collecting the frames that
complete.  Positions keep the invariant `k < |encFrame f|`. -/
def advancePos : List (Nat × List Nat) → Nat → Nat →
    (List (Nat × List Nat) × Nat) × List (List Nat)
  | [], k, _ => (([], k), [])
  | f :: fs, k, n =>
    if n < (encFrame f).length - k then ((f :: fs, k + n), [])
    else
      let p := advancePos fs 0 (n - ((encFrame f).length - k))
      (p.1, encFrame f :: p.2)

/-- The transport state at a stream position. -/
def posStateOf : List (Nat × List Nat) × Nat → TransportSt
  | ([], _) => Transport.initSt
  | (f :: _, k) => posState f k

/-- The unconsumed octets of the stream at a position. -/
def remBytes : List (Nat × List Nat) × Nat → List Nat
  | ([], _) => []
  | (f :: fs, k) => (encFrame f).drop k ++ (fs.map encFrame).flatten

/-- Validity of a stream position: the consumed count stays strictly
inside the current frame, and is zero once the stream is exhausted. -/
def PosOK : List (Nat × List Nat) × Nat → Prop
  | ([], k) => k = 0
  | (f :: _, k) => k < (encFrame f).length

/-! ## Arithmetic bridges between JS bitwise operators and `Nat` -/

/-- Masking with `0xff` is reduction mod 256. -/
theorem and255_eq_mod (x : Nat) : x &&& 255 = x % 256 := by
  have h := Nat.and_pow_two_sub_one_eq_mod x 8
  norm_num at h
  exact h

/-- `>>> 16` is division by `2^16`. -/
theorem shiftRight16_eq (x : Nat) : x >>> 16 = x / 65536 := by
  have h := Nat.shiftRight_eq_div_pow x 16
  norm_num at h
  exact h

/-- `>>> 8` is division by `2^8`. -/
theorem shiftRight8_eq (x : Nat) : x >>> 8 = x / 256 := by
  have h := Nat.shiftRight_eq_div_pow x 8
  norm_num at h
  exact h

/-- The 24-bit big-endian read `(b1 << 16) | (b2 << 8) | b3` is plain
positional arithmetic when the two low fields are octets. -/
theorem or_shift_decomp (b1 b2 b3 : Nat) (h2 : b2 < 256) (h3 : b3 < 256) :
    (b1 <<< 16) ||| (b2 <<< 8) ||| b3 = b1 * 65536 + b2 * 256 + b3 := by
  have e1 : (2 : Nat) ^ 8 * b2 + b3 = 2 ^ 8 * b2 ||| b3 := Nat.mul_add_lt_is_or h3 b2
  have hlt : (2 : Nat) ^ 8 * b2 + b3 < 2 ^ 16 := by norm_num; omega
  have e2 : (2 : Nat) ^ 16 * b1 + (2 ^ 8 * b2 + b3) = 2 ^ 16 * b1 ||| (2 ^ 8 * b2 + b3) :=
    Nat.mul_add_lt_is_or hlt b1
  rw [Nat.shiftLeft_eq, Nat.shiftLeft_eq, Nat.or_assoc,
    Nat.mul_comm b1 (2 ^ 16), Nat.mul_comm b2 (2 ^ 8), ← e1, ← e2]
  norm_num
  ring

/-! ## Block codec lemmas -/

/-- `Block.encode` in arithmetic form. -/
theorem Block.encode_eq (t : Nat) (body : List Nat) :
    Block.encode t body =
      (t % 256) :: (body.length / 65536 % 256) :: (body.length / 256 % 256) ::
        (body.length % 256) :: body := by
  simp [Block.encode, and255_eq_mod, shiftRight16_eq, shiftRight8_eq]

/-- Decoding an encoded frame recovers the type octet (for defined
types) and the first `length mod 2^24` octets of the body: the header
carries only the low 24 bits of the length. -/
theorem Block.decode_encode (t : Nat) (body : List Nat) (ht : t < 256) :
    Block.decode (Block.encode t body) =
      { type := t, body := body.take (body.length % 2 ^ 24) } := by
  rw [Block.encode_eq]
  unfold Block.decode
  have hmod : ∀ x : Nat, x % 256 < 256 := fun x => Nat.mod_lt x (by norm_num)
  simp only [List.headD_cons, List.getD_cons_succ, List.getD_cons_zero, BLOCK_HEAD,
    List.drop_succ_cons, List.drop_zero]
  rw [or_shift_decomp _ _ _ (hmod _) (hmod _)]
  have hlen : body.length / 65536 % 256 * 65536 + body.length / 256 % 256 * 256 +
      body.length % 256 = body.length % 2 ^ 24 := by omega
  rw [hlen, Nat.mod_eq_of_lt ht]
  have htk : (body.take (body.length % 2 ^ 24)).length = body.length % 2 ^ 24 := by
    simp [List.length_take]
    omega
  rw [htk, Nat.sub_self]
  simp

/-- C1: for every defined block type and every body of length
`0 ≤ L < 2^24`, `Block.decode (Block.encode type body)` returns exactly
`(type, body)`, and `encode` lays out one type octet, the 24-bit
big-endian body length, then the body. -/
theorem block_encode_decode_roundtrip (t : BlockType) (body : List Nat)
    (h : body.length < 2 ^ 24) :
    Block.decode (Block.encode t.code body) = { type := t.code, body := body } ∧
    Block.encode t.code body = t.code :: bigEndian24 body.length ++ body := by
  have ht : t.code < 256 := by cases t <;> simp [BlockType.code]
  constructor
  · rw [Block.decode_encode t.code body ht, Nat.mod_eq_of_lt h, List.take_length]
  · rw [Block.encode_eq, Nat.mod_eq_of_lt ht]
    simp [bigEndian24]

/-- C1 witness: the round trip evaluated on a `Data` frame with body
`[7, 8, 9]`. -/
theorem block_encode_decode_roundtrip_witness :
    Block.decode (Block.encode BlockType.Data.code [7, 8, 9]) =
      { type := BlockType.Data.code, body := [7, 8, 9] } ∧
    Block.encode BlockType.Data.code [7, 8, 9] =
      BlockType.Data.code :: bigEndian24 3 ++ [7, 8, 9] :=
  block_encode_decode_roundtrip BlockType.Data [7, 8, 9] (by norm_num)

/-- C9: `Block.encode` never checks the body length; for a body of
length `L ≥ 2^24` the three header octets carry only `L mod 2^24`, so
the header disagrees with the actual body length and
`decode (encode type body)` returns a strictly shorter body instead of
failing. -/
theorem block_encode_overlong_truncates (t : BlockType) (body : List Nat)
    (h : 2 ^ 24 ≤ body.length) :
    Block.encode t.code body = t.code :: bigEndian24 (body.length % 2 ^ 24) ++ body ∧
    Block.decode (Block.encode t.code body) =
      { type := t.code, body := body.take (body.length % 2 ^ 24) } ∧
    (Block.decode (Block.encode t.code body)).body.length < body.length := by
  have ht : t.code < 256 := by cases t <;> simp [BlockType.code]
  have hmodlt : body.length % 2 ^ 24 < body.length :=
    lt_of_lt_of_le (Nat.mod_lt _ (by norm_num)) h
  refine ⟨?_, Block.decode_encode t.code body ht, ?_⟩
  · rw [Block.encode_eq, Nat.mod_eq_of_lt ht]
    simp [bigEndian24]
    omega
  · rw [Block.decode_encode t.code body ht]
    simp [List.length_take]
    omega

/-- C9 witness: a body of exactly `2^24` zero octets round-trips to the
empty body (`2^24 mod 2^24 = 0`), strictly shorter than the input. -/
theorem block_encode_overlong_truncates_witness :
    (Block.decode (Block.encode BlockType.Data.code (List.replicate (2 ^ 24) 0))).body.length <
      (List.replicate (2 ^ 24) (0 : Nat)).length := by
  have h := block_encode_overlong_truncates BlockType.Data (List.replicate (2 ^ 24) 0)
    (by rw [List.length_replicate])
  exact h.2.2

/-- `Transport.getPackageSize` in arithmetic form. -/
theorem getPackageSize_eq (b : List Nat) :
    Transport.getPackageSize b = (b.getD 1 0) * 65536 + (b.getD 2 0) * 256 + b.getD 3 0 := by
  simp [Transport.getPackageSize, List.range']
  rw [Nat.shiftLeft_eq, Nat.shiftLeft_eq]
  ring

/-- C10: on any 4-octet header buffer the package size read by
`Transport.getPackageSize` lies in `[0, 2^24 - 1]`; in particular the
negative-size corruption branch of `Transport.readHead` (`size < 0`,
which would reset the read offset to 0) can never be taken. -/
theorem getPackageSize_range (b : List Nat) (hb : ∀ x ∈ b, x < 256) (hlen : b.length = 4) :
    Transport.getPackageSize b ≤ 2 ^ 24 - 1 ∧ ¬ Transport.getPackageSize b < 0 ∧
    ∀ r : Nat, (if Transport.getPackageSize b < 0 then 0 else r) = r := by
  match b, hlen with
  | [x0, x1, x2, x3], _ =>
    have h1 : x1 < 256 := hb x1 (by simp)
    have h2 : x2 < 256 := hb x2 (by simp)
    have h3 : x3 < 256 := hb x3 (by simp)
    rw [getPackageSize_eq]
    refine ⟨by simp [List.getD]; omega, by omega, fun r => by simp⟩

/-- C10 witness: the all-ones header `[0, 255, 255, 255]` reads as
`2^24 - 1`. -/
theorem getPackageSize_range_witness :
    Transport.getPackageSize [0, 255, 255, 255] ≤ 2 ^ 24 - 1 ∧
    ¬ Transport.getPackageSize [0, 255, 255, 255] < 0 := by
  have h := getPackageSize_range [0, 255, 255, 255] (by decide) (by decide)
  exact ⟨h.1, h.2.1⟩

/-! ## Protocol state gate -/

/-- C3: delivering a block of any defined type `t` that the current
state does not admit (per the §4.6 table) makes `Protocol.onData` emit
nothing and leave the state unchanged. -/
theorem protocol_state_gate (s : ProtocolState) (t : Nat) (body : List Nat)
    (ht : t < 5) (hL : body.length < 2 ^ 24) (hna : Protocol.admitted s t = false) :
    Protocol.onData s (Block.encode t body) = (s, none) := by
  have hdec : Block.decode (Block.encode t body) = { type := t, body := body } := by
    rw [Block.decode_encode t body (by omega), Nat.mod_eq_of_lt hL, List.take_length]
  interval_cases t <;> cases s <;>
    simp_all [Protocol.onData, Protocol.admitted, BlockType.code, Block.check]

/-- C3 witness: a `Handshake` block delivered in `Work` state is
discarded. -/
theorem protocol_state_gate_witness :
    Protocol.onData ProtocolState.Work (Block.encode BlockType.Handshake.code []) =
      (ProtocolState.Work, none) :=
  protocol_state_gate ProtocolState.Work 0 [] (by norm_num) (by norm_num) (by decide)

/-! ## Kick reason round trip -/

/-- C6: the sender does write the Kick body as the decimal text of the
reason (`kick(Timeout)` sends the octets of `"1"`), and the spec's
receiver-side parse maps it back to `Timeout`; but `Commander.onKick`
stores the raw body buffer through an unchecked cast instead of
parsing, so the recorded reason is the byte list `[49]`, not the enum
value the sender passed. -/
theorem kick_reason_recorded_raw :
    Protocol.kickBody DisconnectReason.Timeout = [49] ∧
    specParseKickReason (Protocol.kickBody DisconnectReason.Timeout) =
      some DisconnectReason.Timeout ∧
    (Commander.onKick Commander.workSt (Protocol.kickBody DisconnectReason.Timeout)).reason =
      RecordedReason.raw [49] ∧
    (Commander.onKick Commander.workSt (Protocol.kickBody DisconnectReason.Timeout)).reason ≠
      RecordedReason.reason DisconnectReason.Timeout := by
  refine ⟨?_, ?_, ?_, ?_⟩ <;> decide

/-! ## Transport disconnect notifications -/

/-- Each connection event produces exactly one upward disconnect
notification, so a run of events produces as many notifications as
events. -/
theorem runConnEvents_count (evs : List Transport.ConnEvent) :
    ∀ t, (Transport.runConnEvents t evs).2 = evs.length := by
  induction evs with
  | nil => intro t; rfl
  | cons e es ih =>
    intro t
    cases e <;>
      simp [Transport.runConnEvents, Transport.onConnEvent, Transport.onErrorEv,
        Transport.onCloseEv, ih] <;> omega

/-- After any connection event the transport is `Closed`. -/
theorem runConnEvents_closed (evs : List Transport.ConnEvent) :
    ∀ t, evs ≠ [] → (Transport.runConnEvents t evs).1.state = TransportState.Closed := by
  induction evs with
  | nil => intro t h; exact absurd rfl h
  | cons e es ih =>
    intro t _
    by_cases hes : es = []
    · subst hes
      cases e <;>
        simp [Transport.runConnEvents, Transport.onConnEvent, Transport.onErrorEv,
          Transport.onCloseEv, Transport.close]
    · have hstep : (Transport.runConnEvents t (e :: es)).1 =
          (Transport.runConnEvents (Transport.onConnEvent t e).1 es).1 := by
        simp [Transport.runConnEvents]
      rw [hstep]
      exact ih _ hes

/-- C7 counterexample: an `error` event followed by a `close` event on
the same connection surfaces two upward disconnect notifications, not
one. -/
theorem error_then_close_two_notifications :
    (Transport.runConnEvents Transport.initSt
      [Transport.ConnEvent.error, Transport.ConnEvent.closeEvent]).2 = 2 ∧
    (Transport.runConnEvents Transport.initSt
      [Transport.ConnEvent.error, Transport.ConnEvent.closeEvent]).2 ≠ 1 := by
  decide

/-- C7 amended: every transport error or close event transitions the
transport to `Closed` and surfaces exactly one upward disconnect
notification per event (so an error followed by a close surfaces two);
after closure, inbound data is silenced. -/
theorem transport_close_events_one_notification_each (t : TransportSt)
    (evs : List Transport.ConnEvent) (h : evs ≠ []) :
    (Transport.runConnEvents t evs).1.state = TransportState.Closed ∧
    (Transport.runConnEvents t evs).2 = evs.length ∧
    ∀ buf, Transport.processData (Transport.runConnEvents t evs).1 buf =
      ((Transport.runConnEvents t evs).1, []) := by
  refine ⟨runConnEvents_closed evs t h, runConnEvents_count evs t, fun buf => ?_⟩
  have hc := runConnEvents_closed evs t h
  unfold Transport.processData
  rw [if_pos hc]

/-- C7 amended witness: a single `error` event on a fresh transport. -/
theorem transport_close_events_one_notification_each_witness :
    (Transport.runConnEvents Transport.initSt [Transport.ConnEvent.error]).1.state =
      TransportState.Closed ∧
    (Transport.runConnEvents Transport.initSt [Transport.ConnEvent.error]).2 =
      [Transport.ConnEvent.error].length := by
  have h := transport_close_events_one_notification_each Transport.initSt
    [Transport.ConnEvent.error] (by decide)
  exact ⟨h.1, h.2.1⟩

/-! ## Outbound operations on a closed protocol -/

/-- C8 counterexample: `Commander.request` invoked while the protocol
is `Closed` writes nothing, but still mutates the commander state (it
records the callback, the name and the timestamp, and increments the
request id counter). -/
theorem request_on_closed_protocol_mutates :
    (Commander.request (fun _ => []) Commander.closedSt "status" none 0).2.1 = [] ∧
    (Commander.request (fun _ => []) Commander.closedSt "status" none 0).1 ≠
      Commander.closedSt := by
  decide

/-- C8 amended: while the protocol state is `Closed`, no outbound
operation writes anything to the transport; `command`, `response`,
`error` and `heartbeat` leave the commander state unchanged, `kick`
leaves the pending-request tables, the id counter and the subscription
tables unchanged (it re-closes and zeroes the pulse), but `request` and
`fetch` still register the callback, name and timestamp under a fresh
id and increment the id counter. -/
theorem closed_protocol_outbound_ops (ser : PayloadData → List Nat) (s : CommanderSt)
    (h : s.protocol = ProtocolState.Closed) (name : String) (data : Option (List Nat))
    (req : PayloadData) (err : String) (now : Nat) (r : DisconnectReason) :
    Commander.command ser s name data = (s, []) ∧
    Commander.response ser s req data = (s, []) ∧
    Commander.error ser s req err data = (s, []) ∧
    Commander.heartbeatW s = [] ∧
    (Commander.kick s r).2 = [] ∧
    (Commander.kick s r).1 =
      { s with protocol := .Closed, transport := .Closed, pulseChecks := 0 } ∧
    (Commander.request ser s name data now).2.1 = [] ∧
    (Commander.request ser s name data now).1 =
      { s with
          callbacks := setN s.callbacks s.counter
          names := setA s.names s.counter name
          timeouts := setA s.timeouts s.counter now
          counter := s.counter + 1 } ∧
    (Commander.fetch ser s name data now).2 = [] ∧
    (Commander.fetch ser s name data now).1 =
      { s with
          callbacks := setN s.callbacks s.counter
          names := setA s.names s.counter name
          timeouts := setA s.timeouts s.counter now
          counter := s.counter + 1 } := by
  refine ⟨?_, ?_, ?_, ?_, ?_, ?_, ?_, ?_, ?_, ?_⟩ <;>
    simp [Commander.command, Commander.response, Commander.error, Commander.heartbeatW,
      Commander.kick, Commander.request, Commander.fetch, Protocol.dispatchW, h]

/-- C8 amended witness: the operations evaluated on the concrete closed
commander. -/
theorem closed_protocol_outbound_ops_witness :
    Commander.command (fun _ => []) Commander.closedSt "status" none =
      (Commander.closedSt, []) ∧
    (Commander.request (fun _ => []) Commander.closedSt "status" none 0).1 =
      { Commander.closedSt with
          callbacks := setN Commander.closedSt.callbacks Commander.closedSt.counter
          names := setA Commander.closedSt.names Commander.closedSt.counter "status"
          timeouts := setA Commander.closedSt.timeouts Commander.closedSt.counter 0
          counter := Commander.closedSt.counter + 1 } := by
  have h := closed_protocol_outbound_ops (fun _ => []) Commander.closedSt (by decide)
    "status" none (Payload.create 0 "q" 0 none none) "err" 0 DisconnectReason.Normal
  exact ⟨h.1, h.2.2.2.2.2.2.2.1⟩

/-! ## Bot pulse heartbeats -/

/-- C5 counterexample: in `Bot` role (effective limit 1), the first
silent tick after a reset fires nothing — `checks` becomes 1, which
does not exceed the limit — so one silent tick produces zero outbound
heartbeats, not one. -/
theorem bot_first_silent_tick_no_heartbeat :
    (runSilentTicks CommanderMode.Bot 1 (Pulse.init CommanderMode.Bot 3) Commander.workSt).2 =
      [] ∧
    (runSilentTicks CommanderMode.Bot 1 (Pulse.init CommanderMode.Bot 3)
      Commander.workSt).2.length ≠ 1 := by
  decide

/-- `runSilentTicks` in `Bot` mode from a pulse counter `c ≤ 1`: the
hook fires on every second tick, each firing sends exactly one
heartbeat, and the commander state never changes. -/
theorem runSilentTicksBot_aux (n : Nat) : ∀ (c : Nat) (s : CommanderSt), c ≤ 1 →
    s.protocol ≠ ProtocolState.Closed → s.transport ≠ TransportState.Closed →
    runSilentTicks CommanderMode.Bot n { checks := c, limit := 1 } s =
      (({ checks := (c + n) % 2, limit := 1 }, s),
        List.replicate ((c + n) / 2) (CmdOut.write (Block.encode BlockType.Heartbeat.code []))) := by
  induction n with
  | zero =>
    intro c s hc hp ht
    simp [runSilentTicks, Nat.mod_eq_of_lt (by omega : c < 2), Nat.div_eq_of_lt (by omega : c < 2)]
  | succ n ih =>
    intro c s hc hp ht
    interval_cases c
    · have h1 : Pulse.onCheckPulse { checks := 0, limit := 1 } =
          ({ checks := 1, limit := 1 }, false) := by decide
      simp only [runSilentTicks, h1]
      norm_num
      rw [ih 1 s (by omega) hp ht]
      norm_num [Nat.add_comm 1 n]
    · have h1 : Pulse.onCheckPulse { checks := 1, limit := 1 } =
          ({ checks := 0, limit := 1 }, true) := by decide
      have h2 : Commander.onPulse CommanderMode.Bot s = (s, Commander.heartbeatW s) := by
        simp [Commander.onPulse]
      have h3 : Commander.heartbeatW s =
          [CmdOut.write (Block.encode BlockType.Heartbeat.code [])] := by
        simp [Commander.heartbeatW, Protocol.dispatchW, Transport.dispatchW, hp, ht]
      simp only [runSilentTicks, h1, h2, h3]
      norm_num
      rw [ih 0 s (by omega) hp ht]
      have e1 : (1 + (n + 1)) % 2 = (0 + n) % 2 := by omega
      have e2 : (1 + (n + 1)) / 2 = (0 + n) / 2 + 1 := by omega
      rw [e1, e2, List.replicate_succ]
      norm_num

/-- C5 amended: in `Bot` role the effective limit is 1, so the pulse
hook fires on every second consecutive silent tick (when the counter
exceeds 1); over `n` silent ticks the bot sends exactly `n / 2`
heartbeats, one per firing, and never disconnects (the commander state
is untouched). -/
theorem bot_pulse_every_second_silent_tick (n envLimit : Nat) (s : CommanderSt)
    (hp : s.protocol ≠ ProtocolState.Closed) (ht : s.transport ≠ TransportState.Closed) :
    (runSilentTicks CommanderMode.Bot n (Pulse.init CommanderMode.Bot envLimit) s).2 =
      List.replicate (n / 2) (CmdOut.write (Block.encode BlockType.Heartbeat.code [])) ∧
    (runSilentTicks CommanderMode.Bot n (Pulse.init CommanderMode.Bot envLimit) s).1.2 = s := by
  have hinit : Pulse.init CommanderMode.Bot envLimit = { checks := 0, limit := 1 } := by
    simp [Pulse.init]
  rw [hinit, runSilentTicksBot_aux n 0 s (by omega) hp ht]
  simp

/-- C5 amended witness: four silent ticks of a bot in `Work` produce
exactly two heartbeats and no disconnect. -/
theorem bot_pulse_every_second_silent_tick_witness :
    (runSilentTicks CommanderMode.Bot 4 (Pulse.init CommanderMode.Bot 3) Commander.workSt).2 =
      List.replicate 2 (CmdOut.write (Block.encode BlockType.Heartbeat.code [])) ∧
    (runSilentTicks CommanderMode.Bot 4 (Pulse.init CommanderMode.Bot 3)
      Commander.workSt).1.2 = Commander.workSt := by
  have h := bot_pulse_every_second_silent_tick 4 3 Commander.workSt (by decide) (by decide)
  exact ⟨h.1, h.2⟩

/-! ## Request correlator: map-model lemmas -/

theorem mem_setN (l : List Nat) (k j : Nat) : j ∈ setN l k ↔ j ∈ l ∨ j = k := by
  unfold setN
  split_ifs with h
  · have hk : k ∈ l := by simpa using h
    constructor
    · exact Or.inl
    · rintro (hj | rfl)
      · exact hj
      · exact hk
  · simp

theorem mem_delN (l : List Nat) (k j : Nat) : j ∈ delN l k ↔ j ∈ l ∧ j ≠ k := by
  unfold delN
  simp [List.mem_filter]

theorem getA_delA_ne {α : Type} (l : List (Nat × α)) (k j : Nat) (h : j ≠ k) :
    getA (delA l k) j = getA l j := by
  unfold getA delA
  induction l with
  | nil => rfl
  | cons kv rest ih =>
    by_cases hk : kv.1 = k
    · have : (kv.1 != k) = false := by simp [hk]
      simp only [List.filter_cons, this, Bool.false_eq_true, if_false]
      rw [ih]
      have : (kv.1 == j) = false := by simp [hk]; omega
      simp [List.find?_cons, this]
    · have : (kv.1 != k) = true := by simp [hk]
      simp only [List.filter_cons, this, if_true]
      by_cases hj : kv.1 = j
      · simp [List.find?_cons, hj]
      · have h2 : (kv.1 == j) = false := by simp [hj]
        simp only [List.find?_cons, h2]
        exact ih

theorem getA_overwrite_ne {α : Type} (l : List (Nat × α)) (k j : Nat) (v : α) (h : j ≠ k) :
    getA (l.map (fun kv => if kv.1 = k then (k, v) else kv)) j = getA l j := by
  unfold getA
  induction l with
  | nil => rfl
  | cons kv rest ih =>
    by_cases hk : kv.1 = k
    · have h1 : ((k, v).1 == j) = false := by simp; omega
      have h2 : (kv.1 == j) = false := by simp [hk]; omega
      simp only [List.map_cons, if_pos hk, List.find?_cons, h1, h2]
      exact ih
    · simp only [List.map_cons, if_neg hk, List.find?_cons]
      by_cases hj : kv.1 = j
      · simp [hj]
      · have h2 : (kv.1 == j) = false := by simp [hj]
        simp only [h2]
        exact ih

theorem getA_setA_ne {α : Type} (l : List (Nat × α)) (k j : Nat) (v : α) (h : j ≠ k) :
    getA (setA l k v) j = getA l j := by
  unfold setA
  split_ifs with hc
  · exact getA_overwrite_ne l k j v h
  · unfold getA
    rw [List.find?_append]
    have hone : List.find? (fun kv => kv.1 == j) [(k, v)] = none := by
      simp
      omega
    simp [hone]

theorem getA_append_fresh {α : Type} (l : List (Nat × α)) (k : Nat) (v : α)
    (h : k ∉ l.map Prod.fst) : getA (l ++ [(k, v)]) k = some v := by
  unfold getA
  rw [List.find?_append]
  have hn : List.find? (fun kv => kv.1 == k) l = none := by
    rw [List.find?_eq_none]
    intro kv hkv
    simp only [beq_iff_eq]
    intro he
    exact h (he ▸ List.mem_map_of_mem Prod.fst hkv)
  simp [hn]

theorem keys_delA {α : Type} (l : List (Nat × α)) (k j : Nat) :
    j ∈ (delA l k).map Prod.fst ↔ j ∈ l.map Prod.fst ∧ j ≠ k := by
  unfold delA
  simp only [List.mem_map, List.mem_filter]
  constructor
  · rintro ⟨kv, ⟨hm, hne⟩, rfl⟩
    simp at hne
    exact ⟨⟨kv, hm, rfl⟩, hne⟩
  · rintro ⟨⟨kv, hm, rfl⟩, hne⟩
    exact ⟨kv, ⟨hm, by simp [hne]⟩, rfl⟩

theorem nodup_keys_delA {α : Type} (l : List (Nat × α)) (k : Nat)
    (h : (l.map Prod.fst).Nodup) : ((delA l k).map Prod.fst).Nodup :=
  List.Nodup.sublist (List.Sublist.map Prod.fst (List.filter_sublist l)) h

theorem nodup_delN (l : List Nat) (k : Nat) (h : l.Nodup) : (delN l k).Nodup := by
  unfold delN
  exact h.filter _

/-- With no duplicate keys, any entry for `i` carries the value
`getA` returns. -/
theorem getA_unique {α : Type} (l : List (Nat × α)) (i : Nat) (v w : α)
    (hnd : (l.map Prod.fst).Nodup) (hget : getA l i = some v) (hmem : (i, w) ∈ l) : w = v := by
  induction l with
  | nil => cases hmem
  | cons kv rest ih =>
    simp only [List.map_cons, List.nodup_cons] at hnd
    rcases List.mem_cons.mp hmem with heq | hm
    · have hkey : kv.1 = i := by rw [← heq]
      unfold getA at hget
      simp only [List.find?_cons, show (kv.1 == i) = true by simp [hkey]] at hget
      rw [← heq] at hget
      simp at hget
      exact hget
    · have hkey : kv.1 ≠ i := by
        intro he
        exact hnd.1 (he ▸ List.mem_map_of_mem Prod.fst hm)
      unfold getA at hget
      simp only [List.find?_cons, show (kv.1 == i) = false by simp [hkey]] at hget
      exact ih hnd.2 hget hm

/-! ## Request correlator: invocation counting -/

@[simp] theorem isInvFor_write (i : Nat) (w : List Nat) :
    isInvFor i (CmdOut.write w) = false := rfl

@[simp] theorem isInvFor_task (i : Nat) (n : String) (p : PayloadData) :
    isInvFor i (CmdOut.invokeTask n p) = false := rfl

@[simp] theorem isInvFor_sub (i : Nat) (n : String) (cb : Nat) (p : PayloadData) :
    isInvFor i (CmdOut.invokeSub n cb p) = false := rfl

@[simp] theorem isInvFor_reqHandler (i : Nat) (n : String) (p : PayloadData) :
    isInvFor i (CmdOut.invokeReqHandler n p) = false := rfl

@[simp] theorem isInvFor_ready (i : Nat) : isInvFor i CmdOut.ready = false := rfl

@[simp] theorem isInvFor_response (i j : Nat) (p : PayloadData) :
    isInvFor i (CmdOut.invokeResponse j p) = (j == i) := rfl

theorem invCount_append (i : Nat) (a b : List CmdOut) :
    invCount i (a ++ b) = invCount i a + invCount i b := List.countP_append _ _ _

@[simp] theorem invCount_nil (i : Nat) : invCount i [] = 0 := rfl

@[simp] theorem invCount_heartbeatW (i : Nat) (s : CommanderSt) :
    invCount i (Commander.heartbeatW s) = 0 := by
  unfold invCount Commander.heartbeatW
  rw [List.countP_map, List.countP_eq_zero]
  intro a ha
  simp [Function.comp]

@[simp] theorem countP_heartbeatW (i : Nat) (s : CommanderSt) :
    List.countP (isInvFor i) (Commander.heartbeatW s) = 0 := invCount_heartbeatW i s

/-- The state after `Commander.onPayload`: the pulse is reset, and the
pending record for `payload.id` is cancelled exactly when the envelope
is a `Response` whose id has a registered callback. -/
theorem onPayload_fst (mode : CommanderMode) (tasks : List String) (s : CommanderSt)
    (p : PayloadData) :
    (Commander.onPayload mode tasks s p).1 =
      if p.type = PayloadType.Response.code ∧ p.id ∈ s.callbacks then
        Commander.cancelRequest { s with pulseChecks := 0 } p.id
      else { s with pulseChecks := 0 } := by
  obtain ⟨pt, pname, pid, pdata, perr⟩ := p
  rcases pt with _ | _ | _ | pt
  · cases mode
    · simp only [Commander.onPayload, PayloadType.code]
      norm_num
      split_ifs <;> rfl
    · simp only [Commander.onPayload, PayloadType.code]
      norm_num
      cases getS s.requests pname <;> rfl
  · cases mode
    · simp only [Commander.onPayload, PayloadType.code]
      norm_num
      split_ifs <;> rfl
    · simp only [Commander.onPayload, PayloadType.code]
      norm_num
      cases getS s.commands pname <;> rfl
  · by_cases hc : pid ∈ s.callbacks
    · simp [Commander.onPayload, PayloadType.code, hc]
    · simp [Commander.onPayload, PayloadType.code, hc]
  · simp [Commander.onPayload, PayloadType.code]

/-- The invocation count of id `i` among `Commander.onPayload` outputs:
one exactly when the envelope is a `Response` for `i` with a live
record. -/
theorem onPayload_invCount (mode : CommanderMode) (tasks : List String) (s : CommanderSt)
    (p : PayloadData) (i : Nat) :
    invCount i (Commander.onPayload mode tasks s p).2 =
      if p.type = PayloadType.Response.code ∧ p.id = i ∧ p.id ∈ s.callbacks then 1
      else 0 := by
  obtain ⟨pt, pname, pid, pdata, perr⟩ := p
  rcases pt with _ | _ | _ | pt
  · cases mode
    · simp only [Commander.onPayload, PayloadType.code]
      norm_num
      split_ifs <;> simp [invCount_append, invCount, List.countP_cons]
    · simp only [Commander.onPayload, PayloadType.code]
      norm_num
      cases getS s.requests pname <;>
        simp [invCount_append, invCount, List.countP_cons]
  · cases mode
    · simp only [Commander.onPayload, PayloadType.code]
      norm_num
      split_ifs <;> simp [invCount_append, invCount, List.countP_cons]
    · simp only [Commander.onPayload, PayloadType.code]
      norm_num
      cases getS s.commands pname <;>
        simp [invCount_append, invCount, List.countP_cons, List.countP_map, Function.comp,
          List.countP_false]
  · by_cases hc : pid ∈ s.callbacks
    · by_cases hpi : pid = i
      · subst hpi
        cases mode <;>
          simp [Commander.onPayload, PayloadType.code, hc, invCount,
            List.countP_append, List.countP_cons]
      · cases mode <;>
          simp [Commander.onPayload, PayloadType.code, hc, hpi, invCount,
            List.countP_append, List.countP_cons]
    · cases mode <;>
        simp [Commander.onPayload, PayloadType.code, hc, invCount,
          List.countP_append, List.countP_cons]
  · cases mode <;>
      simp [Commander.onPayload, PayloadType.code, invCount, List.countP_append,
        List.countP_cons]

/-- Members of the heartbeat output are socket writes. -/
theorem heartbeatW_mem (s : CommanderSt) (a : CmdOut) (ha : a ∈ Commander.heartbeatW s) :
    ∃ w, a = CmdOut.write w := by
  unfold Commander.heartbeatW at ha
  rcases List.mem_map.mp ha with ⟨w, _, rfl⟩
  exact ⟨w, rfl⟩

/-- Any callback invocation `Commander.onPayload` emits carries the
envelope it dispatched on, whose id is the invoked record's id. -/
theorem onPayload_out_id (mode : CommanderMode) (tasks : List String) (s : CommanderSt)
    (p : PayloadData) (j : Nat) (q : PayloadData)
    (h : CmdOut.invokeResponse j q ∈ (Commander.onPayload mode tasks s p).2) :
    j = p.id ∧ q = p := by
  obtain ⟨pt, pname, pid, pdata, perr⟩ := p
  have hhb : ∀ s' : CommanderSt, CmdOut.invokeResponse j q ∉ Commander.heartbeatW s' := by
    intro s' hmem
    rcases heartbeatW_mem s' _ hmem with ⟨w, hw⟩
    cases hw
  rcases pt with _ | _ | _ | pt
  · cases mode
    · simp only [Commander.onPayload, PayloadType.code] at h
      norm_num at h
      split_ifs at h <;> simp_all
    · simp only [Commander.onPayload, PayloadType.code] at h
      norm_num at h
      cases hgs : getS s.requests pname <;> simp_all
  · cases mode
    · simp only [Commander.onPayload, PayloadType.code] at h
      norm_num at h
      split_ifs at h <;> simp_all
    · simp only [Commander.onPayload, PayloadType.code] at h
      norm_num at h
      cases hgs : getS s.commands pname <;> simp_all
  · by_cases hc : pid ∈ s.callbacks
    · cases mode <;> simp_all [Commander.onPayload, PayloadType.code, hc]
    · cases mode <;> simp_all [Commander.onPayload, PayloadType.code, hc]
  · cases mode <;> simp_all [Commander.onPayload, PayloadType.code]

/-- `Commander.onPayload` never changes the request id counter. -/
theorem onPayload_counter (mode : CommanderMode) (tasks : List String) (s : CommanderSt)
    (p : PayloadData) : (Commander.onPayload mode tasks s p).1.counter = s.counter := by
  rw [onPayload_fst]
  split_ifs <;> rfl

/-- Membership in the callbacks table after `Commander.onPayload`: only
the delivered `Response` id can disappear. -/
theorem onPayload_mem_callbacks (mode : CommanderMode) (tasks : List String) (s : CommanderSt)
    (p : PayloadData) (j : Nat) :
    j ∈ (Commander.onPayload mode tasks s p).1.callbacks ↔
      j ∈ s.callbacks ∧
        ¬(p.type = PayloadType.Response.code ∧ p.id ∈ s.callbacks ∧ j = p.id) := by
  rw [onPayload_fst]
  split_ifs with h
  · simp only [Commander.cancelRequest, mem_delN]
    constructor
    · rintro ⟨hj, hne⟩
      exact ⟨hj, fun hcon => hne hcon.2.2⟩
    · rintro ⟨hj, hne⟩
      refine ⟨hj, fun he => hne ⟨h.1, h.2, he⟩⟩
  · constructor
    · intro hj
      exact ⟨hj, fun hcon => h ⟨hcon.1, hcon.2.1⟩⟩
    · exact fun hj => hj.1

/-- The stored send-timestamp of any other id survives
`Commander.onPayload`. -/
theorem onPayload_getA_timeouts (mode : CommanderMode) (tasks : List String) (s : CommanderSt)
    (p : PayloadData) (j : Nat) (h : j ≠ p.id) :
    getA (Commander.onPayload mode tasks s p).1.timeouts j = getA s.timeouts j := by
  rw [onPayload_fst]
  split_ifs
  · exact getA_delA_ne s.timeouts p.id j h
  · rfl

/-- `Commander.onPayload` preserves correlator well-formedness. -/
theorem onPayload_WF (mode : CommanderMode) (tasks : List String) (s : CommanderSt)
    (p : PayloadData) (h : CommanderWF s) : CommanderWF (Commander.onPayload mode tasks s p).1 := by
  rw [onPayload_fst]
  obtain ⟨h1, h2, h3, h4⟩ := h
  split_ifs with hcase
  · refine ⟨nodup_delN _ _ h1, nodup_keys_delA _ _ h2, ?_, ?_⟩
    · intro j hj
      exact h3 j (mem_delN _ _ _ |>.mp hj).1
    · intro j
      rw [show (Commander.cancelRequest { s with pulseChecks := 0 } p.id).callbacks =
        delN s.callbacks p.id from rfl]
      rw [show (Commander.cancelRequest { s with pulseChecks := 0 } p.id).timeouts =
        delA s.timeouts p.id from rfl]
      rw [mem_delN, keys_delA, h4 j]
  · exact ⟨h1, h2, h3, h4⟩

/-! ## Timeout-scanner loop lemmas -/

theorem go_counter (mode : CommanderMode) (tasks : List String) (rt now : Nat) :
    ∀ (entries : List (Nat × Nat)) (s : CommanderSt),
      (Commander.onCheckTimeoutGo mode tasks rt now entries s).1.counter = s.counter := by
  intro entries
  induction entries with
  | nil => intro s; rfl
  | cons e rest ih =>
    intro s
    obtain ⟨id, time⟩ := e
    unfold Commander.onCheckTimeoutGo
    split_ifs
    · simp only
      rw [ih, onPayload_counter]
    · exact ih s

theorem go_mem_sub (mode : CommanderMode) (tasks : List String) (rt now : Nat) (j : Nat) :
    ∀ (entries : List (Nat × Nat)) (s : CommanderSt),
      j ∈ (Commander.onCheckTimeoutGo mode tasks rt now entries s).1.callbacks →
        j ∈ s.callbacks := by
  intro entries
  induction entries with
  | nil => intro s h; exact h
  | cons e rest ih =>
    intro s h
    obtain ⟨id, time⟩ := e
    unfold Commander.onCheckTimeoutGo at h
    split_ifs at h
    · simp only at h
      have := ih _ h
      exact (onPayload_mem_callbacks _ _ _ _ _ |>.mp this).1
    · exact ih s h

theorem go_WF (mode : CommanderMode) (tasks : List String) (rt now : Nat) :
    ∀ (entries : List (Nat × Nat)) (s : CommanderSt), CommanderWF s →
      CommanderWF (Commander.onCheckTimeoutGo mode tasks rt now entries s).1 := by
  intro entries
  induction entries with
  | nil => intro s h; exact h
  | cons e rest ih =>
    intro s h
    obtain ⟨id, time⟩ := e
    unfold Commander.onCheckTimeoutGo
    split_ifs
    · simp only
      exact ih _ (onPayload_WF _ _ _ _ h)
    · exact ih s h

theorem go_dead (mode : CommanderMode) (tasks : List String) (rt now i : Nat) :
    ∀ (entries : List (Nat × Nat)) (s : CommanderSt), i ∉ s.callbacks →
      invCount i (Commander.onCheckTimeoutGo mode tasks rt now entries s).2 = 0 ∧
        i ∉ (Commander.onCheckTimeoutGo mode tasks rt now entries s).1.callbacks := by
  intro entries
  induction entries with
  | nil => intro s h; exact ⟨rfl, h⟩
  | cons e rest ih =>
    intro s h
    obtain ⟨id, time⟩ := e
    unfold Commander.onCheckTimeoutGo
    split_ifs
    · simp only
      have hnotin : i ∉ (Commander.onPayload mode tasks s
          (Payload.create PayloadType.Response.code ((getA s.names id).getD "") id none
            (some TIMEOUT_ERROR))).1.callbacks := by
        rw [onPayload_mem_callbacks]
        rintro ⟨hin, _⟩
        exact h hin
      have hrest := ih _ hnotin
      rw [invCount_append]
      have hcnt : invCount i (Commander.onPayload mode tasks s
          (Payload.create PayloadType.Response.code ((getA s.names id).getD "") id none
            (some TIMEOUT_ERROR))).2 = 0 := by
        rw [onPayload_invCount]
        rw [if_neg]
        rintro ⟨_, hid, hin⟩
        exact h (hid ▸ hin)
      rw [hcnt, hrest.1]
      exact ⟨rfl, hrest.2⟩
    · exact ih s h

theorem go_out_id (mode : CommanderMode) (tasks : List String) (rt now : Nat)
    (j : Nat) (q : PayloadData) :
    ∀ (entries : List (Nat × Nat)) (s : CommanderSt),
      CmdOut.invokeResponse j q ∈ (Commander.onCheckTimeoutGo mode tasks rt now entries s).2 →
        q.id = j := by
  intro entries
  induction entries with
  | nil => intro s h; cases h
  | cons e rest ih =>
    intro s h
    obtain ⟨id, time⟩ := e
    unfold Commander.onCheckTimeoutGo at h
    split_ifs at h
    · simp only at h
      rcases List.mem_append.mp h with h1 | h2
      · obtain ⟨hj, hq⟩ := onPayload_out_id _ _ _ _ _ _ h1
        rw [hq, hj]
      · exact ih _ h2
    · exact ih s h

theorem go_skip (mode : CommanderMode) (tasks : List String) (rt now i : Nat) :
    ∀ (entries : List (Nat × Nat)) (s : CommanderSt), i ∈ s.callbacks →
      (∀ t, (i, t) ∈ entries → ¬ rt < now - t) →
      invCount i (Commander.onCheckTimeoutGo mode tasks rt now entries s).2 = 0 ∧
        i ∈ (Commander.onCheckTimeoutGo mode tasks rt now entries s).1.callbacks ∧
        getA (Commander.onCheckTimeoutGo mode tasks rt now entries s).1.timeouts i =
          getA s.timeouts i := by
  intro entries
  induction entries with
  | nil => intro s hin _; exact ⟨rfl, hin, rfl⟩
  | cons e rest ih =>
    intro s hin hent
    obtain ⟨id, time⟩ := e
    by_cases hid : id = i
    · subst hid
      have hnx : ¬ rt < now - time := hent time (List.mem_cons_self _ _)
      unfold Commander.onCheckTimeoutGo
      rw [if_neg hnx]
      exact ih s hin (fun t ht => hent t (List.mem_cons_of_mem _ ht))
    · unfold Commander.onCheckTimeoutGo
      split_ifs with hx
      · simp only
        set p := Payload.create PayloadType.Response.code ((getA s.names id).getD "") id none
          (some TIMEOUT_ERROR) with hp
        have hpid : p.id = id := rfl
        have hin2 : i ∈ (Commander.onPayload mode tasks s p).1.callbacks := by
          rw [onPayload_mem_callbacks]
          exact ⟨hin, fun hcon => hid hcon.2.2.symm⟩
        have hrest := ih _ hin2 (fun t ht => hent t (List.mem_cons_of_mem _ ht))
        have hcnt : invCount i (Commander.onPayload mode tasks s p).2 = 0 := by
          rw [onPayload_invCount, if_neg]
          rintro ⟨_, hidq, _⟩
          exact hid (hpid ▸ hidq)
        refine ⟨?_, hrest.2.1, ?_⟩
        · rw [invCount_append, hcnt, hrest.1]
        · rw [hrest.2.2, onPayload_getA_timeouts]
          rw [hpid]
          exact fun he => hid he.symm
      · exact ih s hin (fun t ht => hent t (List.mem_cons_of_mem _ ht))

theorem go_hit (mode : CommanderMode) (tasks : List String) (rt now i t0 : Nat) :
    ∀ (entries : List (Nat × Nat)) (s : CommanderSt), i ∈ s.callbacks →
      getA entries i = some t0 → rt < now - t0 →
      invCount i (Commander.onCheckTimeoutGo mode tasks rt now entries s).2 = 1 ∧
        i ∉ (Commander.onCheckTimeoutGo mode tasks rt now entries s).1.callbacks := by
  intro entries
  induction entries with
  | nil => intro s _ hget; cases hget
  | cons e rest ih =>
    intro s hin hget hx
    obtain ⟨id, time⟩ := e
    by_cases hid : id = i
    · subst hid
      have ht0 : time = t0 := by
        unfold getA at hget
        simp [List.find?_cons] at hget
        exact hget
      subst ht0
      unfold Commander.onCheckTimeoutGo
      rw [if_pos hx]
      simp only
      set p := Payload.create PayloadType.Response.code ((getA s.names id).getD "") id none
        (some TIMEOUT_ERROR) with hp
      have hnotin : id ∉ (Commander.onPayload mode tasks s p).1.callbacks := by
        rw [onPayload_mem_callbacks]
        rintro ⟨_, hno⟩
        exact hno ⟨rfl, hin, rfl⟩
      have hrest := go_dead mode tasks rt now id rest _ hnotin
      have hcnt : invCount id (Commander.onPayload mode tasks s p).2 = 1 := by
        rw [onPayload_invCount, if_pos ⟨rfl, rfl, hin⟩]
      rw [invCount_append, hcnt, hrest.1]
      exact ⟨rfl, hrest.2⟩
    · have hget2 : getA rest i = some t0 := by
        unfold getA at hget ⊢
        simp only [List.find?_cons, show ((id, time).1 == i) = false by simp [hid]] at hget
        exact hget
      unfold Commander.onCheckTimeoutGo
      split_ifs with hxid
      · simp only
        set p := Payload.create PayloadType.Response.code ((getA s.names id).getD "") id none
          (some TIMEOUT_ERROR) with hp
        have hin2 : i ∈ (Commander.onPayload mode tasks s p).1.callbacks := by
          rw [onPayload_mem_callbacks]
          exact ⟨hin, fun hcon => hid hcon.2.2.symm⟩
        have hrest := ih _ hin2 hget2 hx
        have hcnt : invCount i (Commander.onPayload mode tasks s p).2 = 0 := by
          rw [onPayload_invCount, if_neg]
          rintro ⟨_, hidq, _⟩
          exact hid ((show p.id = id from rfl) ▸ hidq)
        rw [invCount_append, hcnt, hrest.1]
        exact ⟨rfl, hrest.2⟩
      · exact ih s hin hget2 hx


/-! ## Event-trace lemmas for the correlator -/

@[simp] theorem invCount_writes (i : Nat) (l : List (List Nat)) :
    invCount i (l.map CmdOut.write) = 0 := by
  unfold invCount
  rw [List.countP_map, List.countP_eq_zero]
  intro a ha
  simp [Function.comp]

theorem runEv_append (mode : CommanderMode) (tasks : List String)
    (ser : PayloadData → List Nat) (rt : Nat) (a b : List CEvent) : ∀ s : CommanderSt,
    Commander.runEv mode tasks ser rt s (a ++ b) =
      ((Commander.runEv mode tasks ser rt (Commander.runEv mode tasks ser rt s a).1 b).1,
        (Commander.runEv mode tasks ser rt s a).2 ++
          (Commander.runEv mode tasks ser rt (Commander.runEv mode tasks ser rt s a).1 b).2) := by
  induction a with
  | nil => intro s; simp [Commander.runEv]
  | cons e es ih =>
    intro s
    simp [Commander.runEv, ih]

theorem stepEv_counter_mono (mode : CommanderMode) (tasks : List String)
    (ser : PayloadData → List Nat) (rt : Nat) (s : CommanderSt) (e : CEvent) :
    s.counter ≤ (Commander.stepEv mode tasks ser rt s e).1.counter := by
  cases e with
  | request name now => simp [Commander.stepEv, Commander.request]
  | payload p =>
    simp only [Commander.stepEv]
    split_ifs
    · rw [onPayload_counter]
    · exact Nat.le_refl _
  | tick now =>
    unfold Commander.stepEv Commander.onCheckTimeout
    rw [go_counter]

theorem runEv_counter_mono (mode : CommanderMode) (tasks : List String)
    (ser : PayloadData → List Nat) (rt : Nat) (evs : List CEvent) : ∀ s : CommanderSt,
    s.counter ≤ (Commander.runEv mode tasks ser rt s evs).1.counter := by
  induction evs with
  | nil => intro s; exact Nat.le_refl _
  | cons e es ih =>
    intro s
    have h1 := stepEv_counter_mono mode tasks ser rt s e
    have h2 := ih (Commander.stepEv mode tasks ser rt s e).1
    simp only [Commander.runEv]
    exact le_trans h1 h2

theorem stepEv_WF (mode : CommanderMode) (tasks : List String)
    (ser : PayloadData → List Nat) (rt : Nat) (s : CommanderSt) (e : CEvent)
    (h : CommanderWF s) : CommanderWF (Commander.stepEv mode tasks ser rt s e).1 := by
  obtain ⟨h1, h2, h3, h4⟩ := h
  cases e with
  | request name now =>
    have hfreshC : s.counter ∉ s.callbacks := fun hc => absurd (h3 _ hc) (Nat.lt_irrefl _)
    have hfreshT : s.counter ∉ s.timeouts.map Prod.fst := fun hc => hfreshC ((h4 _).mpr hc)
    have hsetT : setA s.timeouts s.counter now = s.timeouts ++ [(s.counter, now)] := by
      unfold setA
      rw [if_neg (by simpa using hfreshT)]
    have hsetC : setN s.callbacks s.counter = s.callbacks ++ [s.counter] := by
      unfold setN
      rw [if_neg (by simpa using hfreshC)]
    simp only [Commander.stepEv, Commander.request]
    refine ⟨?_, ?_, ?_, ?_⟩
    · rw [hsetC]
      simp [List.nodup_append, h1, hfreshC]
    · rw [hsetT]
      simp only [List.map_append, List.map_cons, List.map_nil]
      rw [List.nodup_append]
      refine ⟨h2, List.nodup_singleton _, ?_⟩
      intro j hj
      simp only [List.mem_singleton]
      intro he
      exact hfreshT (he ▸ hj)
    · intro j hj
      rcases (mem_setN _ _ _).mp hj with hj | rfl
      · exact Nat.lt_succ_of_lt (h3 j hj)
      · exact Nat.lt_succ_self _
    · intro j
      rw [mem_setN, hsetT]
      simp only [List.map_append, List.mem_append, List.map_cons, List.map_nil,
        List.mem_singleton]
      rw [h4 j]
  | payload p =>
    simp only [Commander.stepEv]
    split_ifs
    · exact onPayload_WF mode tasks s p ⟨h1, h2, h3, h4⟩
    · exact ⟨h1, h2, h3, h4⟩
  | tick now =>
    unfold Commander.stepEv Commander.onCheckTimeout
    exact go_WF mode tasks rt now s.timeouts s ⟨h1, h2, h3, h4⟩

theorem runEv_WF (mode : CommanderMode) (tasks : List String)
    (ser : PayloadData → List Nat) (rt : Nat) (evs : List CEvent) : ∀ s : CommanderSt,
    CommanderWF s → CommanderWF (Commander.runEv mode tasks ser rt s evs).1 := by
  induction evs with
  | nil => intro s h; exact h
  | cons e es ih =>
    intro s h
    simp only [Commander.runEv]
    exact ih _ (stepEv_WF mode tasks ser rt s e h)

theorem dead_run (mode : CommanderMode) (tasks : List String)
    (ser : PayloadData → List Nat) (rt i : Nat) (evs : List CEvent) : ∀ s : CommanderSt,
    i ∉ s.callbacks → i < s.counter →
    invCount i (Commander.runEv mode tasks ser rt s evs).2 = 0 ∧
      i ∉ (Commander.runEv mode tasks ser rt s evs).1.callbacks ∧
      i < (Commander.runEv mode tasks ser rt s evs).1.counter := by
  induction evs with
  | nil => intro s h1 h2; exact ⟨rfl, h1, h2⟩
  | cons e es ih =>
    intro s h1 h2
    simp only [Commander.runEv]
    cases e with
    | request name now =>
      have hni : i ∉ (Commander.stepEv mode tasks ser rt s (CEvent.request name now)).1.callbacks := by
        simp only [Commander.stepEv, Commander.request]
        rw [mem_setN]
        rintro (hj | rfl)
        · exact h1 hj
        · exact absurd h2 (Nat.lt_irrefl _)
      have hlt : i < (Commander.stepEv mode tasks ser rt s (CEvent.request name now)).1.counter := by
        simp only [Commander.stepEv, Commander.request]
        exact Nat.lt_succ_of_lt h2
      have hrest := ih _ hni hlt
      have hcnt : invCount i (Commander.stepEv mode tasks ser rt s (CEvent.request name now)).2 = 0 := by
        simp only [Commander.stepEv, Commander.request]
        exact invCount_writes i _
      rw [invCount_append, hcnt, hrest.1]
      exact ⟨rfl, hrest.2⟩
    | payload p =>
      by_cases hchk : Payload.check p
      · have hni : i ∉ (Commander.onPayload mode tasks s p).1.callbacks := by
          rw [onPayload_mem_callbacks]
          rintro ⟨hin, _⟩
          exact h1 hin
        have hcnt : invCount i (Commander.onPayload mode tasks s p).2 = 0 := by
          rw [onPayload_invCount, if_neg]
          rintro ⟨_, hid, hin⟩
          exact h1 (hid ▸ hin)
        simp only [Commander.stepEv, if_pos hchk]
        have hrest := ih _ hni (by rw [onPayload_counter]; exact h2)
        rw [invCount_append, hcnt, hrest.1]
        exact ⟨rfl, hrest.2⟩
      · simp only [Commander.stepEv, if_neg hchk]
        have hrest := ih s h1 h2
        rw [invCount_append, hrest.1]
        exact ⟨rfl, hrest.2⟩
    | tick now =>
      have hgo := go_dead mode tasks rt now i s.timeouts s h1
      have hlt : i < (Commander.onCheckTimeoutGo mode tasks rt now s.timeouts s).1.counter := by
        rw [go_counter]
        exact h2
      simp only [Commander.stepEv, Commander.onCheckTimeout]
      have hrest := ih _ hgo.2 hlt
      rw [invCount_append, hgo.1, hrest.1]
      exact ⟨rfl, hrest.2⟩

theorem high_count_zero (mode : CommanderMode) (tasks : List String)
    (ser : PayloadData → List Nat) (rt i : Nat) (evs : List CEvent) : ∀ s : CommanderSt,
    CommanderWF s → (Commander.runEv mode tasks ser rt s evs).1.counter ≤ i →
    invCount i (Commander.runEv mode tasks ser rt s evs).2 = 0 := by
  induction evs with
  | nil => intro s _ _; rfl
  | cons e es ih =>
    intro s hwf hhi
    have hhi2 : (Commander.runEv mode tasks ser rt
        (Commander.stepEv mode tasks ser rt s e).1 es).1.counter ≤ i := by
      simp only [Commander.runEv] at hhi
      exact hhi
    have hmono := runEv_counter_mono mode tasks ser rt es (Commander.stepEv mode tasks ser rt s e).1
    have hsc : s.counter ≤ i :=
      le_trans (stepEv_counter_mono mode tasks ser rt s e) (le_trans hmono hhi2)
    have hnotin : i ∉ s.callbacks := fun hc =>
      absurd (hwf.2.2.1 i hc) (Nat.not_lt.mpr hsc)
    simp only [Commander.runEv]
    have hrest := ih _ (stepEv_WF mode tasks ser rt s e hwf) hhi2
    cases e with
    | request name now =>
      have hcnt : invCount i (Commander.stepEv mode tasks ser rt s (CEvent.request name now)).2 = 0 := by
        simp only [Commander.stepEv, Commander.request]
        exact invCount_writes i _
      rw [invCount_append, hcnt, hrest]
    | payload p =>
      have hcnt : invCount i (Commander.stepEv mode tasks ser rt s (CEvent.payload p)).2 = 0 := by
        simp only [Commander.stepEv]
        split_ifs
        · rw [onPayload_invCount, if_neg]
          rintro ⟨_, hid, hin⟩
          exact hnotin (hid ▸ hin)
        · rfl
      rw [invCount_append, hcnt, hrest]
    | tick now =>
      have hcnt : invCount i (Commander.stepEv mode tasks ser rt s (CEvent.tick now)).2 = 0 := by
        simp only [Commander.stepEv, Commander.onCheckTimeout]
        exact (go_dead mode tasks rt now i s.timeouts s hnotin).1
      rw [invCount_append, hcnt, hrest]

theorem runEv_out_id (mode : CommanderMode) (tasks : List String)
    (ser : PayloadData → List Nat) (rt : Nat) (j : Nat) (q : PayloadData)
    (evs : List CEvent) : ∀ s : CommanderSt,
    CmdOut.invokeResponse j q ∈ (Commander.runEv mode tasks ser rt s evs).2 → q.id = j := by
  induction evs with
  | nil => intro s h; cases h
  | cons e es ih =>
    intro s h
    simp only [Commander.runEv] at h
    rcases List.mem_append.mp h with h1 | h2
    · cases e with
      | request name now =>
        simp only [Commander.stepEv, Commander.request] at h1
        rcases List.mem_map.mp h1 with ⟨w, _, hw⟩
        cases hw
      | payload p =>
        simp only [Commander.stepEv] at h1
        split_ifs at h1
        · obtain ⟨hj, hq⟩ := onPayload_out_id _ _ _ _ _ _ h1
          rw [hq, hj]
        · cases h1
      | tick now =>
        simp only [Commander.stepEv, Commander.onCheckTimeout] at h1
        exact go_out_id _ _ _ _ _ _ _ _ h1
    · exact ih _ h2

/-- While request `i` is pending with stored send-time `t0`, any trace
containing a matching `Response` event or an expired timeout tick
invokes the callback for `i` exactly once. -/
theorem pending_trigger_run (mode : CommanderMode) (tasks : List String)
    (ser : PayloadData → List Nat) (rt i t0 : Nat) (evs : List CEvent) : ∀ s : CommanderSt,
    CommanderWF s → i ∈ s.callbacks → getA s.timeouts i = some t0 →
    (∃ e ∈ evs, IsTrigger i t0 rt e) →
    invCount i (Commander.runEv mode tasks ser rt s evs).2 = 1 := by
  induction evs with
  | nil =>
    intro s _ _ _ hex
    obtain ⟨e, hmem, _⟩ := hex
    cases hmem
  | cons e es ih =>
    intro s hwf hin hget hex
    have hlt : i < s.counter := hwf.2.2.1 i hin
    simp only [Commander.runEv]
    cases e with
    | request name2 now2 =>
      have hcnt : invCount i
          (Commander.stepEv mode tasks ser rt s (CEvent.request name2 now2)).2 = 0 := by
        simp only [Commander.stepEv, Commander.request]
        exact invCount_writes i _
      have hin2 : i ∈ (Commander.stepEv mode tasks ser rt s (CEvent.request name2 now2)).1.callbacks := by
        simp only [Commander.stepEv, Commander.request]
        exact (mem_setN _ _ _).mpr (Or.inl hin)
      have hget2 : getA (Commander.stepEv mode tasks ser rt s
          (CEvent.request name2 now2)).1.timeouts i = some t0 := by
        simp only [Commander.stepEv, Commander.request]
        rw [getA_setA_ne _ _ _ _ (Nat.ne_of_lt hlt)]
        exact hget
      have hex2 : ∃ e ∈ es, IsTrigger i t0 rt e := by
        obtain ⟨et, hmem, htr⟩ := hex
        rcases List.mem_cons.mp hmem with rfl | htl
        · cases htr
        · exact ⟨et, htl, htr⟩
      rw [invCount_append, hcnt,
        ih _ (stepEv_WF mode tasks ser rt s _ hwf) hin2 hget2 hex2]
    | payload p =>
      by_cases hhit : p.type = PayloadType.Response.code ∧ p.id = i
      · have hchk : Payload.check p = true := by
          simp [Payload.check, hhit.1, PayloadType.code]
        have hcnt : invCount i (Commander.onPayload mode tasks s p).2 = 1 := by
          rw [onPayload_invCount, if_pos ⟨hhit.1, hhit.2, hhit.2 ▸ hin⟩]
        have hdead : i ∉ (Commander.onPayload mode tasks s p).1.callbacks := by
          rw [onPayload_mem_callbacks]
          rintro ⟨_, hno⟩
          exact hno ⟨hhit.1, hhit.2 ▸ hin, hhit.2.symm⟩
        have hltc : i < (Commander.onPayload mode tasks s p).1.counter := by
          rw [onPayload_counter]
          exact hlt
        have hrest := dead_run mode tasks ser rt i es _ hdead hltc
        simp only [Commander.stepEv, if_pos hchk]
        rw [invCount_append, hcnt, hrest.1]
      · have hcnt : invCount i
            (Commander.stepEv mode tasks ser rt s (CEvent.payload p)).2 = 0 := by
          simp only [Commander.stepEv]
          split_ifs
          · rw [onPayload_invCount, if_neg]
            rintro ⟨ht, hid, _⟩
            exact hhit ⟨ht, hid⟩
          · rfl
        have hex2 : ∃ e ∈ es, IsTrigger i t0 rt e := by
          obtain ⟨et, hmem, htr⟩ := hex
          rcases List.mem_cons.mp hmem with rfl | htl
          · exact absurd ⟨htr.1, htr.2⟩ hhit
          · exact ⟨et, htl, htr⟩
        have hkeep : i ∈ (Commander.stepEv mode tasks ser rt s (CEvent.payload p)).1.callbacks ∧
            getA (Commander.stepEv mode tasks ser rt s (CEvent.payload p)).1.timeouts i =
              some t0 := by
          simp only [Commander.stepEv]
          split_ifs
          · constructor
            · rw [onPayload_mem_callbacks]
              exact ⟨hin, fun hcon => hhit ⟨hcon.1, hcon.2.2.symm⟩⟩
            · by_cases hpi : p.id = i
              · have htne : ¬ p.type = PayloadType.Response.code := fun ht => hhit ⟨ht, hpi⟩
                rw [onPayload_fst, if_neg (fun hcon => htne hcon.1)]
                exact hget
              · rw [onPayload_getA_timeouts mode tasks s p i (fun he => hpi he.symm)]
                exact hget
          · exact ⟨hin, hget⟩
        rw [invCount_append, hcnt,
          ih _ (stepEv_WF mode tasks ser rt s _ hwf) hkeep.1 hkeep.2 hex2]
    | tick now2 =>
      by_cases hx : rt < now2 - t0
      · have hgo := go_hit mode tasks rt now2 i t0 s.timeouts s hin hget hx
        have hltc : i < (Commander.onCheckTimeoutGo mode tasks rt now2 s.timeouts s).1.counter := by
          rw [go_counter]
          exact hlt
        have hrest := dead_run mode tasks ser rt i es _ hgo.2 hltc
        simp only [Commander.stepEv, Commander.onCheckTimeout]
        rw [invCount_append, hgo.1, hrest.1]
      · have hent : ∀ t, (i, t) ∈ s.timeouts → ¬ rt < now2 - t := by
          intro t hmem
          rw [getA_unique s.timeouts i t0 t hwf.2.1 hget hmem]
          exact hx
        have hgo := go_skip mode tasks rt now2 i s.timeouts s hin hent
        have hex2 : ∃ e ∈ es, IsTrigger i t0 rt e := by
          obtain ⟨et, hmem, htr⟩ := hex
          rcases List.mem_cons.mp hmem with rfl | htl
          · exact absurd htr hx
          · exact ⟨et, htl, htr⟩
        simp only [Commander.stepEv, Commander.onCheckTimeout]
        rw [invCount_append, hgo.1,
          ih _ (go_WF mode tasks rt now2 s.timeouts s hwf) hgo.2.1
            (hgo.2.2.trans hget) hex2]

/-- The fresh commander is well-formed. -/
theorem initSt_WF : CommanderWF Commander.initSt := by
  refine ⟨List.nodup_nil, List.nodup_nil, ?_, ?_⟩
  · intro j hj
    cases hj
  · intro j
    simp [Commander.initSt]

/-- C4: for every request sent with id `i` on a connection that stays
up (the trace contains the serialized correlator events only — no
disconnect), if the trace later contains either an inbound `Response`
envelope with id `i` or a timeout-scanner tick past the request's
deadline, then the callback registered under `i` is invoked exactly
once, and every invocation of that callback carries an envelope whose
id is exactly `i` — never another request's response. -/
theorem request_callback_exactly_once (mode : CommanderMode) (tasks : List String)
    (ser : PayloadData → List Nat) (rt : Nat) (pre post : List CEvent) (name : String)
    (now : Nat)
    (htrig : ∃ e ∈ post,
      IsTrigger (Commander.runEv mode tasks ser rt Commander.initSt pre).1.counter now rt e) :
    invCount (Commander.runEv mode tasks ser rt Commander.initSt pre).1.counter
        (Commander.runEv mode tasks ser rt Commander.initSt
          (pre ++ CEvent.request name now :: post)).2 = 1 ∧
    ∀ q : PayloadData,
      CmdOut.invokeResponse (Commander.runEv mode tasks ser rt Commander.initSt pre).1.counter q ∈
          (Commander.runEv mode tasks ser rt Commander.initSt
            (pre ++ CEvent.request name now :: post)).2 →
        q.id = (Commander.runEv mode tasks ser rt Commander.initSt pre).1.counter := by
  have hwf1 : CommanderWF (Commander.runEv mode tasks ser rt Commander.initSt pre).1 :=
    runEv_WF mode tasks ser rt pre Commander.initSt initSt_WF
  constructor
  · rw [runEv_append]
    set s1 := (Commander.runEv mode tasks ser rt Commander.initSt pre).1 with hs1
    set i := s1.counter with hi
    have hpre : invCount i (Commander.runEv mode tasks ser rt Commander.initSt pre).2 = 0 :=
      high_count_zero mode tasks ser rt i pre Commander.initSt initSt_WF (Nat.le_refl _)
    have hfreshC : i ∉ s1.callbacks := fun hc => absurd (hwf1.2.2.1 i hc) (Nat.lt_irrefl _)
    have hfreshT : i ∉ s1.timeouts.map Prod.fst := fun hc => hfreshC ((hwf1.2.2.2 _).mpr hc)
    have hsetT : setA s1.timeouts i now = s1.timeouts ++ [(i, now)] := by
      unfold setA
      rw [if_neg (by simpa using hfreshT)]
    have hstep : (Commander.stepEv mode tasks ser rt s1 (CEvent.request name now)).1 =
        (Commander.request ser s1 name none now).1 := rfl
    have hin2 : i ∈ (Commander.stepEv mode tasks ser rt s1 (CEvent.request name now)).1.callbacks := by
      rw [hstep]
      simp only [Commander.request]
      exact (mem_setN _ _ _).mpr (Or.inr rfl)
    have hget2 : getA (Commander.stepEv mode tasks ser rt s1
        (CEvent.request name now)).1.timeouts i = some now := by
      rw [hstep]
      simp only [Commander.request]
      rw [hsetT]
      exact getA_append_fresh s1.timeouts i now hfreshT
    have hwf2 := stepEv_WF mode tasks ser rt s1 (CEvent.request name now) hwf1
    have hcnt0 : invCount i (Commander.stepEv mode tasks ser rt s1
        (CEvent.request name now)).2 = 0 := by
      simp only [Commander.stepEv, Commander.request]
      exact invCount_writes i _
    have hpost := pending_trigger_run mode tasks ser rt i now post _ hwf2 hin2 hget2 htrig
    simp only [Commander.runEv]
    rw [invCount_append, hpre, invCount_append, hcnt0, hpost]
  · intro q hq
    exact runEv_out_id mode tasks ser rt _ q _ Commander.initSt hq

/-- C4 witness: a single request with id 0 answered by a matching
`Response` envelope invokes its callback exactly once. -/
theorem request_callback_exactly_once_witness :
    invCount 0 (Commander.runEv CommanderMode.Bot [] (fun _ => []) 5 Commander.initSt
      [CEvent.request "a" 0,
        CEvent.payload { type := 2, name := "a", id := 0, data := [], error := "" }]).2 = 1 := by
  have h := request_callback_exactly_once CommanderMode.Bot [] (fun _ => []) 5 []
    [CEvent.payload { type := 2, name := "a", id := 0, data := [], error := "" }] "a" 0
    ⟨CEvent.payload { type := 2, name := "a", id := 0, data := [], error := "" },
      List.mem_singleton.mpr rfl, ⟨rfl, rfl⟩⟩
  exact h.1

/-! ## Reassembly: frame and alignment lemmas -/

theorem encFrame_length (f : Nat × List Nat) : (encFrame f).length = 4 + f.2.length := by
  rw [encFrame, Block.encode_eq]
  simp
  omega

theorem block_check_iff (t : Nat) : Block.check t = true ↔ t < 5 := by
  simp [Block.check]
  omega

theorem encFrame_take4_head (f : Nat × List Nat) (hwf : WFframe f) :
    ((encFrame f).take 4).headD 0 = f.1 := by
  have h1 : f.1 < 256 := by have := hwf.1; omega
  rw [encFrame, Block.encode_eq]
  simp [Nat.mod_eq_of_lt h1]

theorem getPackageSize_encFrame (f : Nat × List Nat) (hwf : WFframe f) :
    Transport.getPackageSize ((encFrame f).take 4) = f.2.length := by
  rw [encFrame, Block.encode_eq]
  simp only [List.take_succ_cons, List.take_zero]
  rw [getPackageSize_eq]
  simp only [List.getD_cons_succ, List.getD_cons_zero]
  have h := hwf.2
  norm_num at h ⊢
  omega

theorem align_take (buffer : List Nat) (offset m : Nat) (r S : List Nat)
    (h : buffer.drop offset ++ r = S) (hm : m ≤ buffer.length - offset) :
    (buffer.drop offset).take m = S.take m := by
  rw [← h, List.take_append_of_le_length]
  rw [List.length_drop]
  exact hm

theorem align_drop (buffer : List Nat) (offset c : Nat) (r S : List Nat)
    (h : buffer.drop offset ++ r = S) (hc : c ≤ buffer.length - offset) :
    buffer.drop (offset + c) ++ r = S.drop c := by
  rw [← h, List.drop_append_of_le_length (by rw [List.length_drop]; exact hc)]
  rw [List.drop_drop]

theorem remBytes_cons (f : Nat × List Nat) (fs : List (Nat × List Nat)) (k : Nat) :
    remBytes (f :: fs, k) = (encFrame f).drop k ++ remBytes (fs, 0) := by
  cases fs with
  | nil => simp [remBytes]
  | cons g gs => simp [remBytes]

theorem remBytes_length (f : Nat × List Nat) (fs : List (Nat × List Nat)) (k : Nat) :
    ((encFrame f).length - k) ≤ (remBytes (f :: fs, k)).length := by
  rw [remBytes_cons]
  simp [List.length_drop]


/-- `Transport.readHead` from the canonical mid-head state: either the
chunk ends inside the head, or the head completes and the body region
is set up with the whole-frame size. -/
theorem readHead_posState (f : Nat × List Nat) (fs : List (Nat × List Nat)) (k : Nat)
    (buffer : List Nat) (offset : Nat) (r : List Nat)
    (hwf : WFframe f) (hk : k < 4) (hoff : offset ≤ buffer.length)
    (halign : buffer.drop offset ++ r = remBytes (f :: fs, k)) :
    Transport.readHead (posState f k) buffer offset =
      if buffer.length - offset < 4 - k then
        (posState f (k + (buffer.length - offset)), buffer.length)
      else
        ({ state := .Body, head := { buffer := (encFrame f).take 4, size := 4 },
           package := { buffer := (encFrame f).take 4, size := (encFrame f).length } },
          offset + (4 - k)) := by
  have hlenf : (encFrame f).length = 4 + f.2.length := encFrame_length f
  have hkl : ((encFrame f).take k).length = k := by
    rw [List.length_take]
    omega
  have hps : posState f k =
      { state := .Head, head := { buffer := (encFrame f).take k, size := BLOCK_HEAD },
        package := { buffer := [], size := 0 } } := by
    unfold posState
    rw [if_pos (show k < BLOCK_HEAD by simp only [BLOCK_HEAD]; omega)]
  have hcr : min (4 - k) (buffer.length - offset) ≤ buffer.length - offset :=
    Nat.min_le_right _ _
  have htake : (buffer.drop offset).take (min (4 - k) (buffer.length - offset)) =
      ((encFrame f).drop k).take (min (4 - k) (buffer.length - offset)) := by
    rw [align_take buffer offset _ r _ halign hcr, remBytes_cons,
      List.take_append_of_le_length]
    rw [List.length_drop]
    omega
  have hhb : (encFrame f).take k ++
      (buffer.drop offset).take (min (4 - k) (buffer.length - offset)) =
      (encFrame f).take (k + min (4 - k) (buffer.length - offset)) := by
    rw [htake, List.take_add]
  unfold Transport.readHead
  rw [hps]
  simp only [BLOCK_HEAD, hkl, hhb]
  by_cases hlt : buffer.length - offset < 4 - k
  · have hck : min (4 - k) (buffer.length - offset) = buffer.length - offset :=
      Nat.min_eq_right (by omega)
    rw [if_pos hlt, hck]
    rw [if_neg (show ¬ 4 ≤ ((encFrame f).take (k + (buffer.length - offset))).length by
      rw [List.length_take]
      omega)]
    have hpos2 : posState f (k + (buffer.length - offset)) =
        { state := .Head,
          head := { buffer := (encFrame f).take (k + (buffer.length - offset)),
                    size := BLOCK_HEAD },
          package := { buffer := [], size := 0 } } := by
      unfold posState
      rw [if_pos (show k + (buffer.length - offset) < BLOCK_HEAD by
        simp only [BLOCK_HEAD]
        omega)]
    rw [hpos2]
    have hofs : offset + (buffer.length - offset) = buffer.length := by omega
    rw [hofs]
    simp only [BLOCK_HEAD]
  · have hck : min (4 - k) (buffer.length - offset) = 4 - k :=
      Nat.min_eq_left (by omega)
    rw [if_neg hlt, hck]
    have hkc : k + (4 - k) = 4 := by omega
    rw [hkc]
    rw [if_pos (show 4 ≤ ((encFrame f).take 4).length by
      rw [List.length_take]
      omega)]
    rw [getPackageSize_encFrame f hwf]
    rw [if_neg (Nat.not_lt_zero _)]
    rw [if_pos (show Block.check (((encFrame f).take 4).headD 0) = true by
      rw [encFrame_take4_head f hwf]
      exact (block_check_iff f.1).mpr hwf.1)]
    have hfin : f.2.length + 4 = (encFrame f).length := by omega
    rw [hfin]

/-- `Transport.readBody` from the canonical mid-body state: either the
chunk ends inside the body, or the frame completes and the whole frame
is emitted with the transport reset. -/
theorem readBody_posState (f : Nat × List Nat) (fs : List (Nat × List Nat)) (j : Nat)
    (buffer : List Nat) (offset : Nat) (r : List Nat)
    (hwf : WFframe f) (hj4 : 4 ≤ j) (hj : j ≤ (encFrame f).length)
    (hoff : offset ≤ buffer.length)
    (halign : buffer.drop offset ++ r = remBytes (f :: fs, j)) :
    Transport.readBody (posState f j) buffer offset =
      if j + min ((encFrame f).length - j) (buffer.length - offset) < (encFrame f).length then
        (posState f (j + min ((encFrame f).length - j) (buffer.length - offset)),
          offset + min ((encFrame f).length - j) (buffer.length - offset), none)
      else
        (Transport.initSt,
          offset + min ((encFrame f).length - j) (buffer.length - offset),
          some (encFrame f)) := by
  have hlenf : (encFrame f).length = 4 + f.2.length := encFrame_length f
  have hjl : ((encFrame f).take j).length = j := by
    rw [List.length_take]
    omega
  have hps : posState f j =
      { state := .Body,
        head := { buffer := (encFrame f).take BLOCK_HEAD, size := BLOCK_HEAD },
        package := { buffer := (encFrame f).take j, size := (encFrame f).length } } := by
    unfold posState
    rw [if_neg (show ¬ j < BLOCK_HEAD by simp only [BLOCK_HEAD]; omega)]
  have hcr : min ((encFrame f).length - j) (buffer.length - offset) ≤
      buffer.length - offset := Nat.min_le_right _ _
  have htake : (buffer.drop offset).take
        (min ((encFrame f).length - j) (buffer.length - offset)) =
      ((encFrame f).drop j).take
        (min ((encFrame f).length - j) (buffer.length - offset)) := by
    rw [align_take buffer offset _ r _ halign hcr, remBytes_cons,
      List.take_append_of_le_length]
    rw [List.length_drop]
    omega
  have hpkg : (encFrame f).take j ++ (buffer.drop offset).take
        (min ((encFrame f).length - j) (buffer.length - offset)) =
      (encFrame f).take (j + min ((encFrame f).length - j) (buffer.length - offset)) := by
    rw [htake, List.take_add]
  have hpkgl : ((encFrame f).take
        (j + min ((encFrame f).length - j) (buffer.length - offset))).length =
      j + min ((encFrame f).length - j) (buffer.length - offset) := by
    rw [List.length_take]
    have := Nat.min_le_left ((encFrame f).length - j) (buffer.length - offset)
    omega
  unfold Transport.readBody
  rw [hps]
  simp only [hjl, hpkg]
  by_cases hfull : j + min ((encFrame f).length - j) (buffer.length - offset) =
      (encFrame f).length
  · rw [if_pos (by rw [hpkgl, hfull])]
    rw [if_neg (by omega)]
    have hfr : (encFrame f).take
        (j + min ((encFrame f).length - j) (buffer.length - offset)) = encFrame f := by
      rw [hfull, List.take_length]
    rw [hfr]
    rfl
  · have hlt : j + min ((encFrame f).length - j) (buffer.length - offset) <
        (encFrame f).length := by
      have := Nat.min_le_left ((encFrame f).length - j) (buffer.length - offset)
      omega
    rw [if_neg (by rw [hpkgl]; omega)]
    rw [if_pos hlt]
    have hpos2 : posState f (j + min ((encFrame f).length - j) (buffer.length - offset)) =
        { state := .Body,
          head := { buffer := (encFrame f).take BLOCK_HEAD, size := BLOCK_HEAD },
          package := { buffer := (encFrame f).take
                         (j + min ((encFrame f).length - j) (buffer.length - offset)),
                       size := (encFrame f).length } } := by
      unfold posState
      rw [if_neg (show ¬ j + min ((encFrame f).length - j) (buffer.length - offset) <
          BLOCK_HEAD by simp only [BLOCK_HEAD]; omega)]
    rw [hpos2]

theorem processLoop_stop (buffer : List Nat) (fuel : Nat) (t : TransportSt) (offset : Nat)
    (h : ¬ offset < buffer.length) : Transport.processLoop buffer fuel t offset = (t, []) := by
  cases fuel with
  | zero => rfl
  | succ n =>
    unfold Transport.processLoop
    rw [if_neg h]

theorem posState_zero (g : Nat × List Nat) : posState g 0 = Transport.initSt := by
  unfold posState Transport.initSt
  rw [if_pos (show 0 < BLOCK_HEAD by simp [BLOCK_HEAD])]
  simp

theorem remBytes_zero (fs : List (Nat × List Nat)) :
    (fs.map encFrame).flatten = remBytes (fs, 0) := by
  cases fs with
  | nil => simp [remBytes]
  | cons g gs => simp [remBytes]

theorem remBytes_frame_end (f : Nat × List Nat) (fs : List (Nat × List Nat)) (k : Nat)
    (hk : k ≤ (encFrame f).length) :
    (remBytes (f :: fs, k)).drop ((encFrame f).length - k) = remBytes (fs, 0) := by
  rw [remBytes_cons, List.drop_append_of_le_length (by rw [List.length_drop])]
  rw [List.drop_drop]
  have h2 : k + ((encFrame f).length - k) = (encFrame f).length := by omega
  rw [h2, List.drop_length, List.nil_append]

theorem posState_four (f : Nat × List Nat) :
    posState f 4 =
      { state := .Body, head := { buffer := (encFrame f).take 4, size := 4 },
        package := { buffer := (encFrame f).take 4, size := (encFrame f).length } } := by
  unfold posState
  rw [if_neg (show ¬ (4 : Nat) < BLOCK_HEAD by simp [BLOCK_HEAD])]
  simp [BLOCK_HEAD]


theorem advancePos_within (f : Nat × List Nat) (fs : List (Nat × List Nat)) (k n : Nat)
    (h : n < (encFrame f).length - k) :
    advancePos (f :: fs) k n = ((f :: fs, k + n), []) := by
  conv_lhs => unfold advancePos
  rw [if_pos h]

theorem advancePos_emit (f : Nat × List Nat) (fs : List (Nat × List Nat)) (k n : Nat)
    (h : ¬ n < (encFrame f).length - k) :
    advancePos (f :: fs) k n =
      ((advancePos fs 0 (n - ((encFrame f).length - k))).1,
        encFrame f :: (advancePos fs 0 (n - ((encFrame f).length - k))).2) := by
  conv_lhs => unfold advancePos
  rw [if_neg h]

/-- The `processData` read loop, started from a canonical mid-frame
state with a chunk that is a prefix of the remaining well-formed frame
stream, consumes the whole chunk, emits exactly the frames that
complete inside it, and ends in the canonical state of the advanced
stream position. -/
theorem processLoop_stream (fs : List (Nat × List Nat)) : ∀ (f : Nat × List Nat) (k : Nat)
    (buffer : List Nat) (offset fuel : Nat) (r : List Nat),
    WFframe f → (∀ g ∈ fs, WFframe g) →
    k < (encFrame f).length →
    offset ≤ buffer.length →
    buffer.length - offset + 1 ≤ fuel →
    buffer.drop offset ++ r = remBytes (f :: fs, k) →
    Transport.processLoop buffer fuel (posState f k) offset =
      (posStateOf (advancePos (f :: fs) k (buffer.length - offset)).1,
        (advancePos (f :: fs) k (buffer.length - offset)).2) := by
  induction fs with
  | nil =>
    intro f k buffer offset fuel r hwf _ hk hoff hfuel halign
    have hlenf : (encFrame f).length = 4 + f.2.length := encFrame_length f
    have hremle : buffer.length - offset ≤ (encFrame f).length - k := by
      have hlen := congrArg List.length halign
      rw [remBytes_cons] at hlen
      simp only [List.length_append, List.length_drop, remBytes, List.map_nil,
        List.flatten_nil, List.length_nil] at hlen
      omega
    by_cases hoffl : offset < buffer.length
    · cases fuel with
      | zero => omega
      | succ fuel1 =>
        unfold Transport.processLoop
        rw [if_pos hoffl]
        by_cases hk4 : k < 4
        · have hcond : (posState f k).state = TransportState.Head := by
            unfold posState
            rw [if_pos (show k < BLOCK_HEAD by simp [BLOCK_HEAD]; omega)]
          rw [if_pos hcond, readHead_posState f [] k buffer offset r hwf hk4 hoff halign]
          by_cases hlt : buffer.length - offset < 4 - k
          · rw [if_pos hlt]
            simp only []
            have hcond2 : ¬ (posState f (k + (buffer.length - offset))).state =
                TransportState.Body := by
              unfold posState
              rw [if_pos (show k + (buffer.length - offset) < BLOCK_HEAD by
                simp [BLOCK_HEAD]; omega)]
              simp
            rw [if_neg hcond2]
            simp only []
            rw [processLoop_stop buffer fuel1 _ buffer.length (by omega)]
            rw [advancePos_within f [] k _ (by omega)]
            simp [posStateOf]
          · rw [if_neg hlt]
            rw [← posState_four f]
            simp only []
            rw [if_pos (show (posState f 4).state = TransportState.Body by
              rw [posState_four f])]
            have ho1 : offset + (4 - k) ≤ buffer.length := by omega
            have halign2 : buffer.drop (offset + (4 - k)) ++ r = remBytes (f :: [], 4) := by
              have hdr := align_drop buffer offset (4 - k) r _ halign (by omega)
              rw [hdr, remBytes_cons, remBytes_cons, List.drop_append_of_le_length
                (by rw [List.length_drop]; omega), List.drop_drop]
              have h4k : k + (4 - k) = 4 := by omega
              rw [h4k]
            rw [readBody_posState f [] 4 buffer (offset + (4 - k)) r hwf (le_refl 4)
              (by omega) ho1 halign2]
            by_cases hfull : 4 + min ((encFrame f).length - 4)
                (buffer.length - (offset + (4 - k))) < (encFrame f).length
            · rw [if_pos hfull]
              have hmin : min ((encFrame f).length - 4)
                  (buffer.length - (offset + (4 - k))) =
                  buffer.length - (offset + (4 - k)) := by omega
              rw [hmin] at hfull ⊢
              simp only []
              have heq : 4 + (buffer.length - (offset + (4 - k))) =
                  k + (buffer.length - offset) := by omega
              have heq2 : offset + (4 - k) + (buffer.length - (offset + (4 - k))) =
                  buffer.length := by omega
              rw [heq, heq2]
              rw [processLoop_stop buffer fuel1 _ _ (by omega)]
              rw [advancePos_within f [] k _ (by omega)]
              simp [posStateOf]
            · rw [if_neg hfull]
              have hmin : min ((encFrame f).length - 4)
                  (buffer.length - (offset + (4 - k))) = (encFrame f).length - 4 := by
                omega
              rw [hmin] at hfull ⊢
              simp only []
              rw [processLoop_stop buffer fuel1 _ _ (by omega)]
              rw [advancePos_emit f [] k _ (by omega)]
              simp [advancePos, posStateOf]
        · have hcond : ¬ (posState f k).state = TransportState.Head := by
            unfold posState
            rw [if_neg (show ¬ k < BLOCK_HEAD by simp [BLOCK_HEAD]; omega)]
            simp
          rw [if_neg hcond]
          simp only []
          rw [if_pos (show (posState f k).state = TransportState.Body by
            unfold posState
            rw [if_neg (show ¬ k < BLOCK_HEAD by simp [BLOCK_HEAD]; omega)])]
          rw [readBody_posState f [] k buffer offset r hwf (by omega) (by omega)
            hoff halign]
          by_cases hfull : k + min ((encFrame f).length - k) (buffer.length - offset) <
              (encFrame f).length
          · rw [if_pos hfull]
            have hmin : min ((encFrame f).length - k) (buffer.length - offset) =
                buffer.length - offset := by omega
            rw [hmin] at hfull ⊢
            simp only []
            rw [processLoop_stop buffer fuel1 _ _ (by omega)]
            rw [advancePos_within f [] k _ (by omega)]
            simp [posStateOf]
          · rw [if_neg hfull]
            have hmin : min ((encFrame f).length - k) (buffer.length - offset) =
                (encFrame f).length - k := by omega
            rw [hmin] at hfull ⊢
            simp only []
            rw [processLoop_stop buffer fuel1 _ _ (by omega)]
            rw [advancePos_emit f [] k _ (by omega)]
            simp [advancePos, posStateOf]
    · rw [processLoop_stop buffer fuel _ offset hoffl]
      have hrem0 : buffer.length - offset = 0 := by omega
      rw [hrem0]
      rw [advancePos_within f [] k 0 (by omega)]
      simp [posStateOf]
  | cons g gs ih =>
    intro f k buffer offset fuel r hwf hfs hk hoff hfuel halign
    have hlenf : (encFrame f).length = 4 + f.2.length := encFrame_length f
    have hleng : (encFrame g).length = 4 + g.2.length := encFrame_length g
    by_cases hoffl : offset < buffer.length
    · cases fuel with
      | zero => omega
      | succ fuel1 =>
        unfold Transport.processLoop
        rw [if_pos hoffl]
        by_cases hk4 : k < 4
        · have hcond : (posState f k).state = TransportState.Head := by
            unfold posState
            rw [if_pos (show k < BLOCK_HEAD by simp [BLOCK_HEAD]; omega)]
          rw [if_pos hcond,
            readHead_posState f (g :: gs) k buffer offset r hwf hk4 hoff halign]
          by_cases hlt : buffer.length - offset < 4 - k
          · rw [if_pos hlt]
            simp only []
            have hcond2 : ¬ (posState f (k + (buffer.length - offset))).state =
                TransportState.Body := by
              unfold posState
              rw [if_pos (show k + (buffer.length - offset) < BLOCK_HEAD by
                simp [BLOCK_HEAD]; omega)]
              simp
            rw [if_neg hcond2]
            simp only []
            rw [processLoop_stop buffer fuel1 _ buffer.length (by omega)]
            rw [advancePos_within f (g :: gs) k _ (by omega)]
            simp [posStateOf]
          · rw [if_neg hlt]
            rw [← posState_four f]
            simp only []
            rw [if_pos (show (posState f 4).state = TransportState.Body by
              rw [posState_four f])]
            have ho1 : offset + (4 - k) ≤ buffer.length := by omega
            have halign2 : buffer.drop (offset + (4 - k)) ++ r =
                remBytes (f :: g :: gs, 4) := by
              have hdr := align_drop buffer offset (4 - k) r _ halign (by omega)
              rw [hdr, remBytes_cons, remBytes_cons, List.drop_append_of_le_length
                (by rw [List.length_drop]; omega), List.drop_drop]
              have h4k : k + (4 - k) = 4 := by omega
              rw [h4k]
              simp [remBytes_cons]
            rw [readBody_posState f (g :: gs) 4 buffer (offset + (4 - k)) r hwf
              (le_refl 4) (by omega) ho1 halign2]
            by_cases hfull : 4 + min ((encFrame f).length - 4)
                (buffer.length - (offset + (4 - k))) < (encFrame f).length
            · rw [if_pos hfull]
              have hmin : min ((encFrame f).length - 4)
                  (buffer.length - (offset + (4 - k))) =
                  buffer.length - (offset + (4 - k)) := by omega
              rw [hmin] at hfull ⊢
              simp only []
              have heq : 4 + (buffer.length - (offset + (4 - k))) =
                  k + (buffer.length - offset) := by omega
              have heq2 : offset + (4 - k) + (buffer.length - (offset + (4 - k))) =
                  buffer.length := by omega
              rw [heq, heq2]
              rw [processLoop_stop buffer fuel1 _ _ (by omega)]
              rw [advancePos_within f (g :: gs) k _ (by omega)]
              simp [posStateOf]
            · rw [if_neg hfull]
              have hmin : min ((encFrame f).length - 4)
                  (buffer.length - (offset + (4 - k))) = (encFrame f).length - 4 := by
                omega
              rw [hmin] at hfull ⊢
              simp only []
              have ho2 : offset + (4 - k) + ((encFrame f).length - 4) =
                  offset + ((encFrame f).length - k) := by omega
              rw [ho2]
              have halign3 : buffer.drop (offset + ((encFrame f).length - k)) ++ r =
                  remBytes (g :: gs, 0) := by
                have hdr := align_drop buffer offset ((encFrame f).length - k) r _ halign
                  (by omega)
                rw [hdr, remBytes_frame_end f (g :: gs) k (by omega)]
              rw [show Transport.initSt = posState g 0 from (posState_zero g).symm]
              rw [ih g 0 buffer (offset + ((encFrame f).length - k)) fuel1 r
                (hfs g (List.mem_cons_self g gs))
                (fun x hx => hfs x (List.mem_cons_of_mem g hx))
                (by omega) (by omega) (by omega) halign3]
              rw [advancePos_emit f (g :: gs) k _ (by omega)]
              have harg : buffer.length - offset - ((encFrame f).length - k) =
                  buffer.length - (offset + ((encFrame f).length - k)) := by omega
              rw [harg]
              rfl
        · have hcond : ¬ (posState f k).state = TransportState.Head := by
            unfold posState
            rw [if_neg (show ¬ k < BLOCK_HEAD by simp [BLOCK_HEAD]; omega)]
            simp
          rw [if_neg hcond]
          simp only []
          rw [if_pos (show (posState f k).state = TransportState.Body by
            unfold posState
            rw [if_neg (show ¬ k < BLOCK_HEAD by simp [BLOCK_HEAD]; omega)])]
          rw [readBody_posState f (g :: gs) k buffer offset r hwf (by omega) (by omega)
            hoff halign]
          by_cases hfull : k + min ((encFrame f).length - k) (buffer.length - offset) <
              (encFrame f).length
          · rw [if_pos hfull]
            have hmin : min ((encFrame f).length - k) (buffer.length - offset) =
                buffer.length - offset := by omega
            rw [hmin] at hfull ⊢
            simp only []
            rw [processLoop_stop buffer fuel1 _ _ (by omega)]
            rw [advancePos_within f (g :: gs) k _ (by omega)]
            simp [posStateOf]
          · rw [if_neg hfull]
            have hmin : min ((encFrame f).length - k) (buffer.length - offset) =
                (encFrame f).length - k := by omega
            rw [hmin] at hfull ⊢
            simp only []
            have halign3 : buffer.drop (offset + ((encFrame f).length - k)) ++ r =
                remBytes (g :: gs, 0) := by
              have hdr := align_drop buffer offset ((encFrame f).length - k) r _ halign
                (by omega)
              rw [hdr, remBytes_frame_end f (g :: gs) k (by omega)]
            rw [show Transport.initSt = posState g 0 from (posState_zero g).symm]
            rw [ih g 0 buffer (offset + ((encFrame f).length - k)) fuel1 r
              (hfs g (List.mem_cons_self g gs))
              (fun x hx => hfs x (List.mem_cons_of_mem g hx))
              (by omega) (by omega) (by omega) halign3]
            rw [advancePos_emit f (g :: gs) k _ (by omega)]
            have harg : buffer.length - offset - ((encFrame f).length - k) =
                buffer.length - (offset + ((encFrame f).length - k)) := by omega
            rw [harg]
            rfl
    · rw [processLoop_stop buffer fuel _ offset hoffl]
      have hrem0 : buffer.length - offset = 0 := by omega
      rw [hrem0]
      rw [advancePos_within f (g :: gs) k 0 (by omega)]
      simp [posStateOf]

theorem advancePos_add (fs : List (Nat × List Nat)) : ∀ (k m n : Nat),
    advancePos fs k (m + n) =
      ((advancePos (advancePos fs k m).1.1 (advancePos fs k m).1.2 n).1,
        (advancePos fs k m).2 ++
          (advancePos (advancePos fs k m).1.1 (advancePos fs k m).1.2 n).2) := by
  induction fs with
  | nil =>
    intro k m n
    simp [advancePos]
  | cons f fs ih =>
    intro k m n
    by_cases hmn : m + n < (encFrame f).length - k
    · rw [advancePos_within f fs k (m + n) hmn,
        advancePos_within f fs k m (by omega)]
      rw [advancePos_within f fs (k + m) n (by omega)]
      simp [Nat.add_assoc]
    · by_cases hm : m < (encFrame f).length - k
      · rw [advancePos_emit f fs k (m + n) hmn,
          advancePos_within f fs k m hm]
        rw [advancePos_emit f fs (k + m) n (by omega)]
        have harith : n - ((encFrame f).length - (k + m)) =
            m + n - ((encFrame f).length - k) := by omega
        rw [harith]
        simp
      · rw [advancePos_emit f fs k (m + n) hmn,
          advancePos_emit f fs k m hm]
        have harith : m + n - ((encFrame f).length - k) =
            (m - ((encFrame f).length - k)) + n := by omega
        rw [harith, ih 0 (m - ((encFrame f).length - k)) n]
        simp

theorem remBytes_advance (fs : List (Nat × List Nat)) : ∀ (f : Nat × List Nat) (k n : Nat),
    k ≤ (encFrame f).length →
    remBytes ((advancePos (f :: fs) k n).1) = (remBytes (f :: fs, k)).drop n := by
  induction fs with
  | nil =>
    intro f k n hk
    by_cases hn : n < (encFrame f).length - k
    · rw [advancePos_within f [] k n hn]
      rw [show remBytes (f :: [], k + n) =
        (encFrame f).drop (k + n) ++ remBytes (([] : List (Nat × List Nat)), 0) from
        remBytes_cons f [] (k + n)]
      rw [remBytes_cons, List.drop_append_eq_append_drop, List.drop_drop]
      rw [List.length_drop,
        show n - ((encFrame f).length - k) = 0 from by omega, List.drop_zero]
    · rw [advancePos_emit f [] k n hn]
      rw [show remBytes ((advancePos ([] : List (Nat × List Nat)) 0
        (n - ((encFrame f).length - k))).1) = ([] : List Nat) from rfl]
      rw [remBytes_cons, List.drop_append_eq_append_drop]
      have hnil : List.drop n ((encFrame f).drop k) = [] := by
        apply List.eq_nil_of_length_eq_zero
        simp [List.length_drop]
        omega
      rw [hnil, List.nil_append]
      rw [show remBytes (([] : List (Nat × List Nat)), 0) = ([] : List Nat) from rfl]
      rw [List.drop_nil]
  | cons g gs ih =>
    intro f k n hk
    by_cases hn : n < (encFrame f).length - k
    · rw [advancePos_within f (g :: gs) k n hn]
      rw [show remBytes (f :: g :: gs, k + n) =
        (encFrame f).drop (k + n) ++ remBytes (g :: gs, 0) from remBytes_cons f (g :: gs) (k + n)]
      rw [remBytes_cons f (g :: gs) k, List.drop_append_eq_append_drop, List.drop_drop]
      rw [List.length_drop,
        show n - ((encFrame f).length - k) = 0 from by omega, List.drop_zero]
    · rw [advancePos_emit f (g :: gs) k n hn]
      rw [ih g 0 (n - ((encFrame f).length - k)) (Nat.zero_le _)]
      rw [show remBytes (f :: g :: gs, k) =
        (encFrame f).drop k ++ remBytes (g :: gs, 0) from remBytes_cons f (g :: gs) k]
      rw [List.drop_append_eq_append_drop]
      have hnil : List.drop n ((encFrame f).drop k) = [] := by
        apply List.eq_nil_of_length_eq_zero
        simp [List.length_drop]
        omega
      rw [hnil, List.nil_append, List.length_drop]

theorem advancePos_ok (fs : List (Nat × List Nat)) : ∀ (f : Nat × List Nat) (k n : Nat),
    k < (encFrame f).length → n ≤ (remBytes (f :: fs, k)).length →
    PosOK (advancePos (f :: fs) k n).1 := by
  induction fs with
  | nil =>
    intro f k n hk hn
    have hsz : (remBytes (f :: [], k)).length = (encFrame f).length - k := by
      rw [remBytes_cons]
      simp [remBytes, List.length_drop]
    by_cases h : n < (encFrame f).length - k
    · rw [advancePos_within f [] k n h]
      exact (by omega : k + n < (encFrame f).length)
    · rw [advancePos_emit f [] k n h]
      simp [advancePos, PosOK]
  | cons g gs ih =>
    intro f k n hk hn
    by_cases h : n < (encFrame f).length - k
    · rw [advancePos_within f (g :: gs) k n h]
      exact (by omega : k + n < (encFrame f).length)
    · rw [advancePos_emit f (g :: gs) k n h]
      have hng : (encFrame g).length = 4 + g.2.length := encFrame_length g
      have hsz : (remBytes (f :: g :: gs, k)).length =
          ((encFrame f).length - k) + (remBytes (g :: gs, 0)).length := by
        rw [show remBytes (f :: g :: gs, k) =
          (encFrame f).drop k ++ remBytes (g :: gs, 0) from remBytes_cons f (g :: gs) k]
        simp [List.length_drop]
      exact ih g 0 (n - ((encFrame f).length - k)) (by omega) (by omega)

theorem advancePos_mem (fs : List (Nat × List Nat)) : ∀ (k n : Nat) (x : Nat × List Nat),
    x ∈ (advancePos fs k n).1.1 → x ∈ fs := by
  induction fs with
  | nil => intro k n x hx; simpa [advancePos] using hx
  | cons f fs ih =>
    intro k n x hx
    by_cases h : n < (encFrame f).length - k
    · rw [advancePos_within f fs k n h] at hx
      exact hx
    · rw [advancePos_emit f fs k n h] at hx
      exact List.mem_cons_of_mem f (ih 0 _ x hx)

theorem advancePos_full (fs : List (Nat × List Nat)) : ∀ (f : Nat × List Nat) (k : Nat),
    k ≤ (encFrame f).length →
    advancePos (f :: fs) k (remBytes (f :: fs, k)).length =
      (([], 0), encFrame f :: fs.map encFrame) := by
  induction fs with
  | nil =>
    intro f k hk
    have hlen : (remBytes (f :: [], k)).length = (encFrame f).length - k := by
      rw [remBytes_cons]
      simp [remBytes, List.length_drop]
    rw [hlen]
    rw [advancePos_emit f [] k _ (by omega)]
    simp [advancePos]
  | cons g gs ih =>
    intro f k hk
    have hlen : (remBytes (f :: g :: gs, k)).length =
        ((encFrame f).length - k) + (remBytes (g :: gs, 0)).length := by
      rw [show remBytes (f :: g :: gs, k) =
        (encFrame f).drop k ++ remBytes (g :: gs, 0) from remBytes_cons f (g :: gs) k]
      simp [List.length_drop]
    rw [hlen]
    rw [advancePos_emit f (g :: gs) k _ (by omega)]
    rw [show (encFrame f).length - k + (remBytes (g :: gs, 0)).length -
      ((encFrame f).length - k) = (remBytes (g :: gs, 0)).length from by omega]
    rw [ih g 0 (Nat.zero_le _)]
    simp

theorem advancePos_split (fs : List (Nat × List Nat)) : ∀ (k n : Nat),
    (advancePos fs k n).2 ++ ((advancePos fs k n).1.1.map encFrame) = fs.map encFrame := by
  induction fs with
  | nil => intro k n; simp [advancePos]
  | cons f fs ih =>
    intro k n
    by_cases h : n < (encFrame f).length - k
    · rw [advancePos_within f fs k n h]
      simp
    · rw [advancePos_emit f fs k n h]
      simp [ih 0 (n - ((encFrame f).length - k))]

/-- `processData` on a chunk that is a prefix of the remaining frame
stream, started from a canonical mid-frame state: the whole chunk is
consumed, the frames completing inside it are emitted, and the
transport ends in the canonical state of the advanced position. -/
theorem processData_pos (f : Nat × List Nat) (fs : List (Nat × List Nat)) (k : Nat)
    (buffer r : List Nat) (hwf : WFframe f) (hwfs : ∀ g ∈ fs, WFframe g)
    (hk : k < (encFrame f).length)
    (halign : buffer ++ r = remBytes (f :: fs, k)) :
    Transport.processData (posState f k) buffer =
      (posStateOf (advancePos (f :: fs) k buffer.length).1,
        (advancePos (f :: fs) k buffer.length).2) := by
  unfold Transport.processData
  have hst : ¬ (posState f k).state = TransportState.Closed := by
    unfold posState
    split_ifs <;> simp
  rw [if_neg hst]
  have h := processLoop_stream fs f k buffer 0 (buffer.length + 1) r hwf hwfs hk
    (Nat.zero_le _) (by omega) (by simpa using halign)
  simpa using h

/-- Feeding any chunk partition of the remaining stream from a canonical
position drains the stream, emits exactly the pending frames in order,
and returns the transport to its constructor state. -/
theorem processChunks_stream (cs : List (List Nat)) : ∀ (fs : List (Nat × List Nat)) (k : Nat),
    (∀ g ∈ fs, WFframe g) → PosOK (fs, k) →
    cs.flatten = remBytes (fs, k) →
    Transport.processChunks (posStateOf (fs, k)) cs =
      (Transport.initSt, fs.map encFrame) := by
  induction cs with
  | nil =>
    intro fs k hwf hok hflat
    cases fs with
    | nil => simp [Transport.processChunks, posStateOf]
    | cons f fs' =>
      exfalso
      have hk : k < (encFrame f).length := hok
      have h1 : (remBytes (f :: fs', k)).length = 0 := by
        rw [← hflat]
        simp
      rw [remBytes_cons] at h1
      simp [List.length_drop] at h1
      omega
  | cons c cs' ih =>
    intro fs k hwf hok hflat
    rw [List.flatten_cons] at hflat
    cases fs with
    | nil =>
      have hce : c = [] ∧ cs'.flatten = ([] : List Nat) := by
        simpa [remBytes] using hflat
      obtain ⟨hc, hcs⟩ := hce
      subst hc
      have hrec := ih ([] : List (Nat × List Nat)) k hwf hok (by simp [remBytes, hcs])
      conv_lhs => unfold Transport.processChunks
      simp only []
      rw [show Transport.processData (posStateOf (([] : List (Nat × List Nat)), k)) [] =
        (Transport.initSt, ([] : List (List Nat))) from rfl]
      rw [show posStateOf (([] : List (Nat × List Nat)), k) = Transport.initSt from rfl] at hrec
      rw [hrec]
      simp
    | cons f fs' =>
      have hk : k < (encFrame f).length := hok
      have hwff : WFframe f := hwf f (List.mem_cons_self f fs')
      have hwfs : ∀ g ∈ fs', WFframe g := fun g hg => hwf g (List.mem_cons_of_mem f hg)
      have hpd := processData_pos f fs' k c cs'.flatten hwff hwfs hk hflat
      have hlen : c.length ≤ (remBytes (f :: fs', k)).length := by
        rw [← hflat]
        simp
      have hok' : PosOK (advancePos (f :: fs') k c.length).1 :=
        advancePos_ok fs' f k c.length hk hlen
      have hwf' : ∀ g ∈ (advancePos (f :: fs') k c.length).1.1, WFframe g := by
        intro g hg
        exact hwf g (advancePos_mem (f :: fs') k c.length g hg)
      have hcs : cs'.flatten = remBytes (advancePos (f :: fs') k c.length).1 := by
        rw [remBytes_advance fs' f k c.length (le_of_lt hk)]
        rw [← hflat, List.drop_left]
      have hrec := ih (advancePos (f :: fs') k c.length).1.1
        (advancePos (f :: fs') k c.length).1.2 hwf' hok' hcs
      conv_lhs => unfold Transport.processChunks
      simp only []
      rw [show posStateOf (f :: fs', k) = posState f k from rfl, hpd]
      rw [show posStateOf ((advancePos (f :: fs') k c.length).1.1,
        (advancePos (f :: fs') k c.length).1.2) =
        posStateOf (advancePos (f :: fs') k c.length).1 from rfl] at hrec
      rw [hrec]
      rw [show ((f : Nat × List Nat) :: fs').map encFrame =
        (advancePos (f :: fs') k c.length).2 ++
          ((advancePos (f :: fs') k c.length).1.1.map encFrame) from
        (advancePos_split (f :: fs') k c.length).symm]

/-- C2: for every sequence of whole well-formed frames and every
partitioning of their concatenated octets into chunks fed to
`Transport.processData` in order, the transport delivers upward exactly
the frames, whole and in order (one `onData` per frame). -/
theorem transport_reassembly_independence (fs : List (Nat × List Nat)) (cs : List (List Nat))
    (hwf : ∀ f ∈ fs, WFframe f)
    (hchunks : cs.flatten = (fs.map encFrame).flatten) :
    (Transport.processChunks Transport.initSt cs).2 = fs.map encFrame := by
  have hok : PosOK (fs, 0) := by
    cases fs with
    | nil => rfl
    | cons f fs' =>
      have h := encFrame_length f
      show 0 < (encFrame f).length
      omega
  have hflat : cs.flatten = remBytes (fs, 0) := by
    rw [hchunks, remBytes_zero]
  have hinit : posStateOf (fs, 0) = Transport.initSt := by
    cases fs with
    | nil => rfl
    | cons f fs' => exact posState_zero f
  have h := processChunks_stream cs fs 0 hwf hok hflat
  rw [hinit] at h
  rw [h]

theorem transport_reassembly_independence_witness :
    (Transport.processChunks Transport.initSt [[3, 0], [0, 2, 7], [8, 2, 0, 0, 0]]).2 =
      ([(3, [7, 8]), (2, [])] : List (Nat × List Nat)).map encFrame :=
  transport_reassembly_independence [(3, [7, 8]), (2, [])] [[3, 0], [0, 2, 7], [8, 2, 0, 0, 0]]
    (by simp [WFframe]) (by decide)
